import Mathlib


/-! ## Definitions: the embedded program -/

/-! Shallow embedding of the citation-linking core of `src/app.py`.
Text is modelled as `List Char` (Python `str` indexing is by code point,
matching `List Char` positions).  The fixed regular expressions of the
source are embedded through a small backtracking matcher in
continuation-passing style, which reproduces Python `re`'s
leftmost, greedy-with-backtracking semantics for these patterns. -/
abbrev Str := List Char

/-- Whitespace as Python's `str.isspace` / `re` `\s` (unicode mode) sees it,
restricted to the characters that can realistically occur here. -/
def pyIsSpace (c : Char) : Bool :=
  c = ' ' || c = '\t' || c = '\n' || c = '\r' || c = '\x0b' || c = '\x0c' ||
  c = '\x1c' || c = '\x1d' || c = '\x1e' || c = '\x1f' ||
  c = '\u0085' || c = ' ' || c = ' ' || c = ' ' ||
  c = ' ' || c = ' ' || c = ' ' || c = ' ' ||
  c = ' ' || c = ' ' || c = ' ' || c = ' ' ||
  c = ' ' || c = ' ' || c = ' ' || c = ' ' ||
  c = ' ' || c = ' ' || c = '　'

def isAsciiDigit (c : Char) : Bool := '0' ≤ c && c ≤ '9'

/-- Python `str.strip()`. -/
def pyStrip (s : Str) : Str :=
  ((s.dropWhile pyIsSpace).reverse.dropWhile pyIsSpace).reverse

/-- Python `str.split(c)` for a one-character separator: always returns a
non-empty list; `''.split(c) == ['']`. -/
def pySplit (c : Char) : Str → List Str
  | [] => [[]]
  | x :: xs =>
    match pySplit c xs with
    | [] => [[]]
    | r :: rs => if x = c then [] :: r :: rs else (x :: r) :: rs

/-- Python `sep.join(parts)` for a one-character separator. -/
def pyJoin (c : Char) : List Str → Str
  | [] => []
  | [l] => l
  | l :: ls => l ++ c :: pyJoin c ls

/-- Python `str.replace(pat, rep)` for a non-empty pattern (it always is
in the source): replace every non-overlapping occurrence, scanning left to
right.  Fuel-based so that it reduces in the kernel; the fuel `s.length`
always suffices. -/
def pyReplaceF (pat rep : Str) : Nat → Str → Str
  | _, [] => []
  | 0, s => s
  | fuel + 1, x :: xs =>
    if pat.length = 0 then x :: xs
    else if pat.isPrefixOf (x :: xs) then
      rep ++ pyReplaceF pat rep fuel ((x :: xs).drop pat.length)
    else
      x :: pyReplaceF pat rep fuel xs

def pyReplace (s pat rep : Str) : Str := pyReplaceF pat rep s.length s

/-- Python `sub in s` (substring containment). -/
def pyContains (s sub : Str) : Bool :=
  match s with
  | [] => sub.isPrefixOf ([] : Str)
  | x :: xs => sub.isPrefixOf (x :: xs) || pyContains xs sub

/-- ASCII lower-casing, as Python `re.IGNORECASE` behaves on the ASCII
noise keywords of the source. -/
def pyLower (s : Str) : Str := s.map Char.toLower

/-- Lexicographic (code-point) `<=` on strings, Python's `str` order. -/
def strLe : Str → Str → Bool
  | [], _ => true
  | _ :: _, [] => false
  | a :: as, b :: bs =>
    if a = b then strLe as bs else decide (a < b)

/-- The regex fragment needed by the source's fixed patterns.
`cls` is a single character from a class, `star`/`plus` are greedy
repetitions of a class, `lazyStar` the lazy variant, `nchk` a one-character
negative lookahead `(?![c])` (succeeds at end of input), `dollar` Python's
`$` (end of string, or just before a final newline). -/
inductive RE where
  | eps : RE
  | cls : (Char → Bool) → RE
  | lit : Str → RE
  | seq : RE → RE → RE
  | opt : RE → RE
  | star : (Char → Bool) → RE
  | plus : (Char → Bool) → RE
  | lazyPlus : (Char → Bool) → RE
  | nchk : (Char → Bool) → RE
  | dollar : RE

/-- Greedy `p*`: prefer consuming, backtrack by yielding shorter tails. -/
def starGreedy (p : Char → Bool) (k : Str → Option α) : Str → Option α
  | [] => k []
  | c :: s =>
    if p c then
      match starGreedy p k s with
      | some a => some a
      | none => k (c :: s)
    else k (c :: s)

/-- Lazy `p*?`: prefer the continuation, consume only on failure. -/
def starLazy (p : Char → Bool) (k : Str → Option α) : Str → Option α
  | [] => k []
  | c :: s =>
    match k (c :: s) with
    | some a => some a
    | none => if p c then starLazy p k s else none

/-- The matcher: `matchRE r s k` tries to match `r` at the start of `s` and
calls `k` with the remaining suffix; alternatives are tried in Python
`re`'s preference order, and a `none` from `k` backtracks. -/
def matchRE : RE → Str → (Str → Option α) → Option α
  | .eps, s, k => k s
  | .cls p, s, k =>
    match s with
    | [] => none
    | c :: s1 => if p c then k s1 else none
  | .lit l, s, k => if l.isPrefixOf s then k (s.drop l.length) else none
  | .seq a b, s, k => matchRE a s (fun s1 => matchRE b s1 k)
  | .opt a, s, k =>
    match matchRE a s k with
    | some v => some v
    | none => k s
  | .star p, s, k => starGreedy p k s
  | .plus p, s, k =>
    match s with
    | [] => none
    | c :: s1 => if p c then starGreedy p k s1 else none
  | .lazyPlus p, s, k =>
    match s with
    | [] => none
    | c :: s1 => if p c then starLazy p k s1 else none
  | .nchk p, s, k =>
    match s with
    | [] => k s
    | c :: _ => if p c then none else k s
  | .dollar, s, k =>
    if s = [] ∨ s = ['\n'] then k s else none

/-- Match a regex against a whole suffix, returning how many characters it
consumed (the first success in preference order). -/
def matchLen (r : RE) (s : Str) : Option Nat :=
  matchRE r s (fun rest => some (s.length - rest.length))

/-- First-match association-list lookup (Python `dict` access; dict keys
are unique, so first-match agrees with Python). -/
def alookup {β : Type} (k : Str) : List (Str × β) → Option β
  | [] => none
  | (a, v) :: rest => if a = k then some v else alookup k rest

def digitsRE : Nat → RE
  | 0 => .eps
  | n + 1 => .seq (.cls isAsciiDigit) (digitsRE n)

/-- Embeds `re.match(r'(fsc_pen_\d{8}_\d{4})', s)`: anchored at the start,
group 1 is the consumed prefix. -/
def canonMatch (s : Str) : Option Str :=
  matchRE (.seq (.lit "fsc_pen_".data)
    (.seq (digitsRE 8) (.seq (.lit "_".data) (digitsRE 4)))) s
    (fun rest => some (s.take (s.length - rest.length)))

/-- Embeds `extract_file_id(filename, gemini_id_mapping)`: reverse-map lookup of
`files/<stripped>` when the map is non-empty (falsy empty dict skips it),
then the structural `fsc_pen_YYYYMMDD_NNNN` fallback on the cleaned name,
else `None`. -/
def extract_file_id (filename : Str) (gmap : List (Str × Str)) : Option Str :=
  let viaMap : Option Str :=
    match gmap with
    | [] => none
    | _ :: _ =>
      alookup ("files/".data ++ pyReplace filename "files/".data []) gmap
  match viaMap with
  | some v => some v
  | none =>
    canonMatch (pyReplace (pyReplace filename "files/".data []) ".md".data [])

/-- Enumeration/conjunction particles accepted before a phase-1 citation. -/
def conn1 (c : Char) : Bool :=
  c = '、' || c = '，' || c = '及' || c = '與' || c = '和' || c = '以'

/-- Connector particles required before a phase-2 abbreviated citation. -/
def conn2 (c : Char) : Bool :=
  c = '、' || c = '，' || c = '及' || c = '與' || c = '和'

def notNL (c : Char) : Bool := c ≠ '\n'

/-- The article pattern `第\d+條(?:之\d+)?`, greedy. -/
def articleRE : RE :=
  .seq (.lit "第".data) (.seq (.plus isAsciiDigit)
    (.seq (.lit "條".data) (.opt (.seq (.lit "之".data) (.plus isAsciiDigit)))))

/-- Embeds `re.match(r'^(.+?)(第\d+條(?:之\d+)?)', law)`: lazily split a full
citation key into statute name and article number. -/
def lawKeySplit (law : Str) : Option (Str × Str) :=
  matchRE (.lazyPlus notNL) law (fun r1 =>
    matchRE articleRE r1 (fun r2 =>
      some (law.take (law.length - r1.length), r1.take (r1.length - r2.length))))

/-- One optional `第\d+X` qualifier. -/
def qualRE (u : Str) : RE := .seq (.lit "第".data) (.seq (.plus isAsciiDigit) (.lit u))

/-- The qualifier tail `(?:第\d+項)?(?:第\d+款)?(?:第\d+目)?`. -/
def qualsRE : RE :=
  .seq (.opt (qualRE "項".data)) (.seq (.opt (qualRE "款".data)) (.opt (qualRE "目".data)))

/-- The trailing lookaheads `(?!\])(?!\))`. -/
def lookRE : RE := .seq (.nchk (· = ']')) (.nchk (· = ')'))

/-- Phase-1 pattern body (the two lookbehinds are checked by the scanner):
optional connector, optional 《, statute name, optional 》, `\s*`, article,
optional qualifiers, trailing lookaheads. -/
def pat1RE (name article : Str) : RE :=
  .seq (.opt (.seq (.cls conn1) (.star pyIsSpace)))
    (.seq (.opt (.cls (· = '《'))) (.seq (.lit name) (.seq (.opt (.cls (· = '》')))
      (.seq (.star pyIsSpace) (.seq (.lit article) (.seq qualsRE lookRE))))))

/-- Phase-2 pattern body: required connector, `\s*`, the abbreviated key,
optional qualifiers, trailing lookaheads. -/
def pat2RE (law : Str) : RE :=
  .seq (.cls conn2) (.seq (.star pyIsSpace) (.seq (.lit law) (.seq qualsRE lookRE)))

/-- Try the pattern at offset `i`; returns the end offset on success. -/
def tryPat (r : RE) (t : Str) (i : Nat) : Option Nat :=
  matchRE r (t.drop i) (fun rest => some (t.length - rest.length))

/-- The lookbehinds `(?<!\[)(?<!\()`: the character before the match start. -/
def lookbehindOK (t : Str) (i : Nat) : Bool :=
  match i with
  | 0 => true
  | j + 1 =>
    match (t.drop j).head? with
    | some c => !(c = '[' || c = '(')
    | none => true

/-- Embeds `re.finditer`: leftmost scan; a successful non-empty match resumes at
its end, otherwise the scan advances one position. -/
def findIterAux (r : RE) (t : Str) : Nat → Nat → List (Nat × Nat)
  | 0, _ => []
  | fuel + 1, i =>
    if t.length < i then []
    else
      let res := if lookbehindOK t i then tryPat r t i else none
      match res with
      | some e =>
        if i < e then (i, e) :: findIterAux r t fuel e
        else (i, e) :: findIterAux r t fuel (i + 1)
      | none => findIterAux r t fuel (i + 1)

def findIter (r : RE) (t : Str) : List (Nat × Nat) :=
  findIterAux r t (t.length + 1) 0

/-- Python pySlice `t[s:e]`. -/
def pySlice (t : Str) (s e : Nat) : Str := (t.take e).drop s

/-- One inserted link, tracked for the statement of the span properties:
`s`/`e` are its offsets, maintained under later replacements so that at
the end of the run they are offsets into the final string. -/
structure Span where
  s : Nat
  e : Nat
  phase : Nat
  key : Str
  url : Str
  matched : Str
  repl : Str
deriving Repr, DecidableEq

/-- Linker state: the mutable text buffer, the `replaced_positions` set
exactly as the source records it (raw offset pairs, never shifted), and
the ghost list of inserted spans in current coordinates. -/
structure LState where
  result : Str
  positions : List (Nat × Nat)
  spans : List Span
deriving Repr

/-- Monotone offset transport across a replacement of `[s, e)` by a string
of length `L`. -/
def remapPoint (s e L p : Nat) : Nat :=
  if p ≤ s then p else if e ≤ p then p - e + (s + L) else s + min (p - s) L

def remapSpan (s e L : Nat) (sp : Span) : Span :=
  { sp with s := remapPoint s e L sp.s, e := remapPoint s e L sp.e }

/-- The source's overlap test `start < pos_end and end > pos` against every
recorded pair. -/
def overlapsAny (ps : List (Nat × Nat)) (s e : Nat) : Bool :=
  ps.any (fun q => s < q.2 && q.1 < e)

/-- One replacement `result = result[:start] + replacement + result[end:]` plus the
position record `(start, start + len(replacement))`. -/
def applyRepl (st : LState) (s e : Nat) (repl : Str) (ph : Nat)
    (key url matched : Str) : LState :=
  let L := repl.length
  { result := st.result.take s ++ repl ++ st.result.drop e
    positions := (s, s + L) :: st.positions
    spans := st.spans.map (remapSpan s e L) ++
      [{ s := s, e := s + L, phase := ph, key := key, url := url,
         matched := matched, repl := repl }] }

/-- Embeds `re.match(r'^([、，及與和以]\s*)?(.+)$', matched_text)` (phase 1). -/
def connSplit1 (m : Str) : Option (Str × Str) :=
  matchRE (.opt (.seq (.cls conn1) (.star pyIsSpace))) m (fun r1 =>
    matchRE (.seq (.plus notNL) .dollar) r1 (fun r2 =>
      some (m.take (m.length - r1.length), r1.take (r1.length - r2.length))))

/-- Embeds `re.match(r'([、，及與和]\s*)(.+)', matched_text)` (phase 2). -/
def connSplit2 (m : Str) : Option (Str × Str) :=
  matchRE (.seq (.cls conn2) (.star pyIsSpace)) m (fun r1 =>
    matchRE (.plus notNL) r1 (fun r2 =>
      some (m.take (m.length - r1.length), r1.take (r1.length - r2.length))))

/-- Phase-1 replacement: keep the connector outside the link when the
re-split succeeds, else wrap the whole matched text. -/
def edit1 (key url : Str) (st : LState) (m : Nat × Nat × Str) : LState :=
  let repl :=
    match connSplit1 m.2.2 with
    | some (g1, g2) => g1 ++ '[' :: (g2 ++ ']' :: '(' :: (url ++ [')']))
    | none => '[' :: (m.2.2 ++ ']' :: '(' :: (url ++ [')']))
  applyRepl st m.1 m.2.1 repl 1 key url m.2.2

/-- Phase-2 replacement: only performed when the connector re-split
succeeds; otherwise nothing happens and nothing is recorded. -/
def edit2 (key url : Str) (st : LState) (m : Nat × Nat × Str) : LState :=
  match connSplit2 m.2.2 with
  | some (g1, g2) =>
    applyRepl st m.1 m.2.1 (g1 ++ '[' :: (g2 ++ ']' :: '(' :: (url ++ [')']))) 2 key url m.2.2
  | none => st

/-- The loop `for ... in reversed(matches)`: process an ascending match list from
the back. -/
def processDesc (ed : LState → (Nat × Nat × Str) → LState) (st : LState) :
    List (Nat × Nat × Str) → LState
  | [] => st
  | m :: rest => ed (processDesc ed st rest) m

/-- Phase-1 treatment of one key: skip abbreviated keys, split the key,
scan the current buffer, drop matches overlapping recorded positions,
then replace back to front. -/
def processLaw1 (d : List (Str × Str)) (st : LState) (law : Str) : LState :=
  if ("第".data).isPrefixOf law then st
  else
    match lawKeySplit law with
    | none => st
    | some (name, article) =>
      let url := (alookup law d).getD []
      let ms := (findIter (pat1RE name article) st.result).filter
        (fun m => ! overlapsAny st.positions m.1 m.2)
      processDesc (edit1 law url) st
        (ms.map (fun m => (m.1, m.2, pySlice st.result m.1 m.2)))

/-- Phase-2 treatment of one key: only abbreviated keys. -/
def processLaw2 (d : List (Str × Str)) (st : LState) (law : Str) : LState :=
  if ("第".data).isPrefixOf law then
    let url := (alookup law d).getD []
    let ms := (findIter (pat2RE law) st.result).filter
      (fun m => ! overlapsAny st.positions m.1 m.2)
    processDesc (edit2 law url) st
      (ms.map (fun m => (m.1, m.2, pySlice st.result m.1 m.2)))
  else st

/-- Keys sorted by length, longest first; Python `sorted` is stable so
equal lengths keep dict insertion order. -/
def sortedLaws (d : List (Str × Str)) : List Str :=
  List.insertionSort (fun a b : Str => b.length ≤ a.length) (d.map (·.1))

/-- The whole linker, with the ghost span list. -/
def addLawLinksCore (text : Str) (d : List (Str × Str)) : LState :=
  match d with
  | [] => { result := text, positions := [], spans := [] }
  | _ :: _ =>
    let st1 := (sortedLaws d).foldl (processLaw1 d) { result := text, positions := [], spans := [] }
    (sortedLaws d).foldl (processLaw2 d) st1

/-- Embeds `add_law_links_to_text(text, law_links_dict)`. -/
def add_law_links_to_text (text : Str) (d : List (Str × Str)) : Str :=
  (addLawLinksCore text d).result

/-- The heading pattern `(###\s*\d+\.\s+)([^\n]+)` at offset `i`: returns the group-1 end and
the match end. -/
def headTry (t : Str) (i : Nat) : Option (Nat × Nat) :=
  matchRE (.seq (.lit "###".data) (.seq (.star pyIsSpace)
      (.seq (.plus isAsciiDigit) (.seq (.lit ".".data) (.plus pyIsSpace)))))
    (t.drop i) (fun r1 =>
      matchRE (.plus notNL) r1 (fun r2 =>
        some (t.length - r1.length, t.length - r2.length)))

/-- Embeds `re.finditer` for the heading pattern (no lookbehind): triples
`(start, group-1 end, end)`. -/
def headIterAux (t : Str) : Nat → Nat → List (Nat × Nat × Nat)
  | 0, _ => []
  | fuel + 1, i =>
    if t.length < i then []
    else
      match headTry t i with
      | some (g, e) =>
        if i < e then (i, g, e) :: headIterAux t fuel e
        else (i, g, e) :: headIterAux t fuel (i + 1)
      | none => headIterAux t fuel (i + 1)

def headingMatches (t : Str) : List (Nat × Nat × Nat) :=
  headIterAux t (t.length + 1) 0

/-- The check `title.startswith('[') and '](' in title`. -/
def isLinkedTitle (title : Str) : Bool :=
  ("[".data).isPrefixOf title && pyContains title "](".data

/-- One iteration of the reversed loop: `idx` is the heading's forward
index; group strings are read from the original text `t`, offsets applied
to the evolving buffer `r`. -/
def caseEdit (t : Str) (urls : List Str) (idx : Nat) (m : Nat × Nat × Nat) (r : Str) : Str :=
  if urls.length ≤ idx then r
  else
    let pre := pySlice t m.1 m.2.1
    let title := pyStrip (pySlice t m.2.1 m.2.2)
    if isLinkedTitle title then r
    else
      r.take m.1 ++ (pre ++ '[' :: (title ++ ']' :: '(' :: (urls.getD idx [] ++ [')']))) ++
        r.drop m.2.2

/-- Process the enumerated headings from the back (`reversed(matches)`). -/
def goCase (t : Str) (urls : List Str) : List (Nat × Nat × Nat × Nat) → Str
  | [] => t
  | (idx, m) :: rest => caseEdit t urls idx m (goCase t urls rest)

/-- Embeds `insert_case_links_by_order(text, case_urls)`. -/
def insert_case_links_by_order (t : Str) (urls : List Str) : Str :=
  match urls with
  | [] => t
  | _ :: _ =>
    match headingMatches t with
    | [] => t
    | ms => goCase t urls ms.enum

/-- The fixed noise keyword list of the source. -/
def noise_patterns : List Str :=
  ["facebook".data, "Facebook".data, "twitter".data, "Twitter".data,
   "line".data, "LINE".data, "分享".data, "列印".data, "轉寄".data,
   "友善列印".data, "回上一頁".data, ":::".data, "回首頁".data,
   "網站導覽".data, "English".data, "兒童版".data, "行動版".data,
   "RSS".data, "字級大小".data, "小 中 大".data]

/-- Embeds `re.search(pattern, line, re.IGNORECASE)` over the literal keywords:
case-insensitive substring containment. -/
def isNoise (line : Str) : Bool :=
  noise_patterns.any (fun p => pyContains (pyLower line) (pyLower p))

/-- The kept lines: each split line stripped, dropped when empty or noisy. -/
def cleanedLines (text : Str) : List Str :=
  (pySplit '\n' text).filterMap (fun l0 =>
    let l := pyStrip l0
    if l = [] then none else if isNoise l then none else some l)

/-- Embeds `remove_social_media_noise(text)`. -/
def remove_social_media_noise (text : Str) : Str :=
  pyJoin '\n' (cleanedLines text)

/-! ### `display_sources_simple` (src/app.py lines 336-403): the
reference-list construction -/
structure SourceItem where
  filename : Str
  snippet : Str
deriving Repr, DecidableEq

structure FileInfo where
  display_name : Str
  date : Str
  original_url : Str
  law_links : List (Str × Str)
deriving Repr, DecidableEq

/-- The dedup loop: resolve, drop falsy or unmapped ids, keep the first
occurrence per id (`seen` set). -/
def dedupSourcesAux (mapping : List (Str × FileInfo)) (gmap : List (Str × Str)) :
    List SourceItem → List Str → List (Str × Str)
  | [], _ => []
  | src :: rest, seen =>
    match extract_file_id src.filename gmap with
    | none => dedupSourcesAux mapping gmap rest seen
    | some fid =>
      if fid = [] then dedupSourcesAux mapping gmap rest seen
      else if (alookup fid mapping).isNone then dedupSourcesAux mapping gmap rest seen
      else if fid ∈ seen then dedupSourcesAux mapping gmap rest seen
      else (fid, src.snippet) :: dedupSourcesAux mapping gmap rest (fid :: seen)

def dedupSources (sources : List SourceItem) (mapping : List (Str × FileInfo))
    (gmap : List (Str × Str)) : List (Str × Str) :=
  dedupSourcesAux mapping gmap sources []

/-- The sort key: `file_mapping.get(item[...], dict()).get('date', '')`. -/
def sourceDate (mapping : List (Str × FileInfo)) (item : Str × Str) : Str :=
  match alookup item.1 mapping with
  | some info => info.date
  | none => []

/-- Embeds `unique_sources.sort(key=..., reverse=True)`: stable descending by
date. -/
def uniqueSources (sources : List SourceItem) (mapping : List (Str × FileInfo))
    (gmap : List (Str × Str)) : List (Str × Str) :=
  List.insertionSort
    (fun a b => strLe (sourceDate mapping b) (sourceDate mapping a) = true)
    (dedupSources sources mapping gmap)

/-- The per-source collection loop of `main`: resolve each source (no
dedup), keep those whose id is present in the mapping (a present entry is
modelled as truthy), then sort by date, newest first (stable). -/
def fileIdsWithInfo (sources : List SourceItem) (mapping : List (Str × FileInfo))
    (gmap : List (Str × Str)) : List (Str × FileInfo) :=
  List.insertionSort (fun a b => strLe b.2.date a.2.date = true)
    (sources.filterMap (fun src =>
      match extract_file_id src.filename gmap with
      | none => none
      | some fid => (alookup fid mapping).map (fun info => (fid, info))))

def badLawStart (c : Char) : Bool :=
  c = '與' || c = '同' || c = '及' || c = '或' || c = '和'

/-- The filter keeping keys not starting with 與, 同, 及, 或, 和. -/
def filteredLawLinks (links : List (Str × Str)) : List (Str × Str) :=
  links.filter (fun kv =>
    match kv.1 with
    | [] => true
    | c :: _ => ! badLawStart c)

/-- Python `dict.update`: existing keys keep their position and take the
new value, new keys are appended in order. -/
def dictUpdate (d e : List (Str × Str)) : List (Str × Str) :=
  (d.map (fun kv =>
    match alookup kv.1 e with
    | some v => (kv.1, v)
    | none => kv)) ++ e.filter (fun kv => (alookup kv.1 d).isNone)

/-- The table `all_law_links` as assembled in `main`. -/
def mainLawLinks (sources : List SourceItem) (mapping : List (Str × FileInfo))
    (gmap : List (Str × Str)) : List (Str × Str) :=
  (fileIdsWithInfo sources mapping gmap).foldl
    (fun acc fi => dictUpdate acc (filteredLawLinks fi.2.law_links)) []

/-- The list `case_urls`: the non-empty original URLs in date-ranked order. -/
def mainCaseUrls (sources : List SourceItem) (mapping : List (Str × FileInfo))
    (gmap : List (Str × Str)) : List Str :=
  (fileIdsWithInfo sources mapping gmap).filterMap
    (fun fi => if fi.2.original_url = [] then none else some fi.2.original_url)

/-- The answer text `main` passes to `st.markdown`: only the case-title
linker is applied (`response_with_all_links = insert_case_links_by_order(...)`);
the law-citation linker is not run on the answer. -/
def mainAnnotatedAnswer (text : Str) (sources : List SourceItem)
    (mapping : List (Str × FileInfo)) (gmap : List (Str × Str)) : Str :=
  insert_case_links_by_order text (mainCaseUrls sources mapping gmap)

/-- The pipeline the specification describes: case-title linking followed
by law-citation linking with the table assembled from the ranked records. -/
def specAnnotatedAnswer (text : Str) (sources : List SourceItem)
    (mapping : List (Str × FileInfo)) (gmap : List (Str × Str)) : Str :=
  add_law_links_to_text
    (insert_case_links_by_order text (mainCaseUrls sources mapping gmap))
    (mainLawLinks sources mapping gmap)

-- C2 staleness probe: three occurrences of the long key, then the short
-- suffix key slips inside the third (shifted) link.

/-- A canonical case id: exactly `fsc_pen_` + 8 digits + `_` + 4 digits. -/
def isCanonicalId (id : Str) : Bool :=
  id.length = 21 && "fsc_pen_".data.isPrefixOf id &&
  ((id.drop 8).take 8).all isAsciiDigit && (id.drop 16).take 1 = ['_'] &&
  (id.drop 17).all isAsciiDigit

/-- Validity of a match list relative to a left bound: ascending, each
match well-formed and inside the text. -/
def ChainPieces (t : Str) : Nat → List (Nat × Nat × Nat) → Prop
  | _, [] => True
  | pos, (s, g, e) :: rest => pos ≤ s ∧ s ≤ g ∧ g ≤ e ∧ e ≤ t.length ∧ ChainPieces t e rest

/-- Left-to-right splice: replace `[s, e)` by `r` for each piece, pieces
ascending and disjoint. -/
def spliceLTR (t : Str) : Nat → List (Nat × Nat × Str) → Str
  | pos, [] => t.drop pos
  | pos, (s, e, r) :: ps => (t.take s).drop pos ++ r ++ spliceLTR t e ps

/-- The replacement `insert_case_links_by_order` makes for the `i`-th
heading: kept as-is past the end of the URL list or when the stripped
title is already in link form, else group 1 plus the stripped title linked
to the `i`-th URL. -/
def caseReplacement (t : Str) (urls : List Str) (i : Nat) (m : Nat × Nat × Nat) : Str :=
  if urls.length ≤ i then pySlice t m.1 m.2.2
  else if isLinkedTitle (pyStrip (pySlice t m.2.1 m.2.2)) then pySlice t m.1 m.2.2
  else pySlice t m.1 m.2.1 ++
    '[' :: (pyStrip (pySlice t m.2.1 m.2.2) ++ ']' :: '(' :: (urls.getD i [] ++ [')']))

def caseLinkPieces (t : Str) (urls : List Str) : List (Nat × Nat × Str) :=
  (headingMatches t).enum.map (fun p => (p.2.1, p.2.2.2, caseReplacement t urls p.1 p.2))

/-- The connector discipline of one inserted span: a phase-2 span always
begins with a connector word and keeps it (with the following whitespace)
outside the link markup; a phase-1 span whose newline-free matched text
begins with a connector keeps that connector run outside the link. -/
def SpanShape (sp : Span) : Prop :=
  (sp.phase = 2 → ∃ c ws tl g2, conn2 c = true ∧ (∀ x ∈ ws, pyIsSpace x = true) ∧
    g2 ≠ [] ∧ (∀ x ∈ g2, notNL x = true) ∧
    sp.matched = (c :: ws) ++ g2 ++ tl ∧
    sp.repl = (c :: ws) ++ '[' :: (g2 ++ ']' :: '(' :: (sp.url ++ [')']))) ∧
  (sp.phase = 1 → ∀ c rest, sp.matched = c :: rest → conn1 c = true → rest ≠ [] →
    (∀ x ∈ sp.matched, notNL x = true) →
    ∃ ws g2, (∀ x ∈ ws, pyIsSpace x = true) ∧ rest = ws ++ g2 ∧
      sp.repl = (c :: ws) ++ '[' :: (g2 ++ ']' :: '(' :: (sp.url ++ [')'])))

def c4Sources : List SourceItem :=
  [⟨"fsc_pen_20230101_0001.md".data, "s1".data⟩,
   ⟨"fsc_pen_20230101_0001.md".data, "s2".data⟩,
   ⟨"fsc_pen_20230101_0002.md".data, "s3".data⟩]

def c4Mapping : List (Str × FileInfo) :=
  [("fsc_pen_20230101_0001".data, ⟨"A".data, "2023-01-01".data, "http://a".data, []⟩),
   ("fsc_pen_20230101_0002".data, ⟨"B".data, "2023-01-01".data, "http://b".data, []⟩)]

/-! ## Theorems -/

theorem pyReplaceF_fuel {pat rep : Str} :
    ∀ (f1 f2 : Nat) (s : Str), s.length ≤ f1 → s.length ≤ f2 →
      pyReplaceF pat rep f1 s = pyReplaceF pat rep f2 s := by
  intro f1
  induction f1 with
  | zero =>
    intro f2 s h1 _
    have hs : s = [] := List.length_eq_zero.mp (Nat.le_zero.mp h1)
    subst hs
    cases f2 <;> rfl
  | succ f ihf =>
    intro f2 s h1 h2
    cases s with
    | nil => cases f2 <;> rfl
    | cons x xs =>
      cases f2 with
      | zero => simp at h2
      | succ g =>
        simp only [pyReplaceF]
        by_cases hp : pat.length = 0
        · simp [hp]
        · rw [if_neg hp, if_neg hp]
          by_cases hpre : pat.isPrefixOf (x :: xs) = true
          · simp only [hpre, if_true]
            have hlen : ((x :: xs).drop pat.length).length ≤ f := by
              simp only [List.length_drop, List.length_cons]
              simp only [List.length_cons] at h1
              omega
            have hlen2 : ((x :: xs).drop pat.length).length ≤ g := by
              simp only [List.length_drop, List.length_cons]
              simp only [List.length_cons] at h2
              omega
            rw [ihf g _ hlen hlen2]
          · simp only [hpre, Bool.false_eq_true, if_false]
            have hlen : xs.length ≤ f := by
              simp only [List.length_cons] at h1
              omega
            have hlen2 : xs.length ≤ g := by
              simp only [List.length_cons] at h2
              omega
            rw [ihf g _ hlen hlen2]

/-- One-step unfolding of `pyReplace`. -/
theorem pyReplace_eq (s pat rep : Str) :
    pyReplace s pat rep =
      if pat.length = 0 then s
      else
        match s with
        | [] => []
        | x :: xs =>
          if pat.isPrefixOf (x :: xs) then
            rep ++ pyReplace ((x :: xs).drop pat.length) pat rep
          else
            x :: pyReplace xs pat rep := by
  cases s with
  | nil =>
    show ([] : Str) = _
    split <;> rfl
  | cons x xs =>
    show pyReplaceF pat rep (xs.length + 1) (x :: xs) = _
    simp only [pyReplaceF]
    by_cases hp : pat.length = 0
    · simp [hp]
    · rw [if_neg hp, if_neg hp]
      by_cases hpre : pat.isPrefixOf (x :: xs) = true
      · simp only [hpre, if_true]
        rw [pyReplaceF_fuel xs.length ((x :: xs).drop pat.length).length _
          (by simp only [List.length_drop, List.length_cons]; omega) (le_refl _)]
        rfl
      · simp only [hpre, Bool.false_eq_true, if_false]
        rfl

/-! ### Lemmas about the Python string primitives -/
theorem dropWhile_head_not {p : Char → Bool} {l : Str} {h : Char}
    (hh : (l.dropWhile p).head? = some h) : p h = false := by
  induction l with
  | nil => simp [List.dropWhile] at hh
  | cons x xs ih =>
    by_cases hx : p x
    · simp [List.dropWhile, hx] at hh
      exact ih hh
    · simp [List.dropWhile, hx] at hh
      subst hh
      simpa using hx

theorem dropWhile_of_head_not {p : Char → Bool} {l : Str}
    (hh : ∀ h, l.head? = some h → p h = false) : l.dropWhile p = l := by
  cases l with
  | nil => rfl
  | cons x xs =>
    have := hh x rfl
    simp [List.dropWhile, this]

/-- Stripping keeps a suffix of a prefix: membership is preserved. -/
theorem mem_of_mem_pyStrip {x : Char} {s : Str} (hx : x ∈ pyStrip s) : x ∈ s := by
  unfold pyStrip at hx
  have h1 := List.dropWhile_sublist (l := ((s.dropWhile pyIsSpace).reverse)) (p := pyIsSpace)
  have h2 := List.dropWhile_sublist (l := s) (p := pyIsSpace)
  rw [List.mem_reverse] at hx
  have := h1.mem hx
  rw [List.mem_reverse] at this
  exact h2.mem this

theorem pyStrip_head_not {s : Str} {h : Char}
    (hh : (pyStrip s).head? = some h) : pyIsSpace h = false := by
  unfold pyStrip at hh
  rw [List.head?_reverse] at hh
  have hne : ((s.dropWhile pyIsSpace).reverse.dropWhile pyIsSpace) ≠ [] := by
    intro he
    rw [he] at hh
    simp at hh
  have hsuf := List.dropWhile_suffix (l := (s.dropWhile pyIsSpace).reverse) (p := pyIsSpace)
  obtain ⟨a, ha⟩ := hsuf
  have h2 : ((s.dropWhile pyIsSpace).reverse).getLast? = some h := by
    rw [← ha, List.getLast?_append_of_ne_nil _ hne]
    exact hh
  rw [List.getLast?_reverse] at h2
  exact dropWhile_head_not h2

theorem pyStrip_getLast_not {s : Str} {h : Char}
    (hh : (pyStrip s).getLast? = some h) : pyIsSpace h = false := by
  unfold pyStrip at hh
  rw [List.getLast?_reverse] at hh
  exact dropWhile_head_not hh

/-- A string whose ends are not whitespace is fixed by `pyStrip`. -/
theorem pyStrip_of_stripped {l : Str}
    (h1 : ∀ h, l.head? = some h → pyIsSpace h = false)
    (h2 : ∀ h, l.getLast? = some h → pyIsSpace h = false) :
    pyStrip l = l := by
  unfold pyStrip
  rw [dropWhile_of_head_not h1]
  rw [dropWhile_of_head_not (by
    intro h hh
    rw [List.head?_reverse] at hh
    exact h2 h hh)]
  exact List.reverse_reverse l

theorem pyStrip_idem (s : Str) : pyStrip (pyStrip s) = pyStrip s :=
  pyStrip_of_stripped (fun _ hh => pyStrip_head_not hh)
    (fun _ hh => pyStrip_getLast_not hh)

/-- Elements of `pySplit c s` do not contain the separator. -/
theorem pySplit_no_sep (c : Char) (s : Str) : ∀ l ∈ pySplit c s, c ∉ l := by
  induction s with
  | nil =>
    intro l hl
    simp [pySplit] at hl
    simp [hl]
  | cons x xs ih =>
    intro l hl
    simp only [pySplit] at hl
    rcases hr : pySplit c xs with _ | ⟨r, rs⟩
    · rw [hr] at hl
      simp at hl
      simp [hl]
    · rw [hr] at hl
      by_cases hx : x = c
      · simp [hx] at hl
        rcases hl with h | h | h
        · simp [h]
        · exact h ▸ ih r (by rw [hr]; exact List.mem_cons_self r rs)
        · exact ih l (by rw [hr]; exact List.mem_cons_of_mem _ h)
      · simp [hx] at hl
        rcases hl with h | h
        · subst h
          intro hc
          rcases List.mem_cons.mp hc with h | h
          · exact hx h.symm
          · exact ih r (by rw [hr]; exact List.mem_cons_self r rs) h
        · exact ih l (by rw [hr]; exact List.mem_cons_of_mem _ h)

/-- Splitting never returns the empty list. -/
theorem pySplit_ne_nil (c : Char) (s : Str) : pySplit c s ≠ [] := by
  induction s with
  | nil => simp [pySplit]
  | cons x xs ih =>
    simp only [pySplit]
    rcases hr : pySplit c xs with _ | ⟨r, rs⟩
    · simp
    · by_cases hx : x = c <;> simp [hx]

/-- Splitting a separator-free string yields the singleton. -/
theorem pySplit_no_sep_eq {c : Char} {l : Str} (h : c ∉ l) :
    pySplit c l = [l] := by
  induction l with
  | nil => rfl
  | cons x xs ih =>
    have hx : x ≠ c := fun he => h (he ▸ List.mem_cons_self x xs)
    have hxs : c ∉ xs := fun hc => h (List.mem_cons_of_mem _ hc)
    simp only [pySplit, ih hxs]
    simp [fun he => hx he]

/-- Splitting `l ++ c :: r` when `c ∉ l` peels off `l`. -/
theorem pySplit_append_sep {c : Char} {l r : Str} (h : c ∉ l) :
    pySplit c (l ++ c :: r) = l :: pySplit c r := by
  induction l with
  | nil =>
    simp only [List.nil_append, pySplit]
    rcases hr : pySplit c r with _ | ⟨q, qs⟩
    · exact absurd hr (pySplit_ne_nil c r)
    · simp
  | cons x xs ih =>
    have hx : x ≠ c := fun he => h (he ▸ List.mem_cons_self x xs)
    have hxs : c ∉ xs := fun hc => h (List.mem_cons_of_mem _ hc)
    have : (x :: xs) ++ c :: r = x :: (xs ++ c :: r) := rfl
    rw [this]
    simp only [pySplit, ih hxs]
    simp [fun he => hx he]

/-- Splitting inverts joining on non-empty, separator-free parts. -/
theorem pySplit_pyJoin {c : Char} {L : List Str} (hne : L ≠ [])
    (h : ∀ l ∈ L, c ∉ l) : pySplit c (pyJoin c L) = L := by
  induction L with
  | nil => exact absurd rfl hne
  | cons l ls ih =>
    cases ls with
    | nil => exact pySplit_no_sep_eq (h l (List.mem_cons_self _ _))
    | cons l2 ls2 =>
      have : pyJoin c (l :: l2 :: ls2) = l ++ c :: pyJoin c (l2 :: ls2) := rfl
      rw [this, pySplit_append_sep (h l (List.mem_cons_self _ _))]
      rw [ih (by simp) (fun x hx => h x (List.mem_cons_of_mem _ hx))]

/-- Every kept line is non-empty, stripped, non-noisy, and newline-free. -/
theorem mem_cleanedLines {text l : Str} (hl : l ∈ cleanedLines text) :
    l ≠ [] ∧ pyStrip l = l ∧ isNoise l = false ∧ '\n' ∉ l := by
  unfold cleanedLines at hl
  rw [List.mem_filterMap] at hl
  obtain ⟨a, ha, hfa⟩ := hl
  simp only at hfa
  by_cases h1 : pyStrip a = []
  · simp [h1] at hfa
  · by_cases h2 : isNoise (pyStrip a)
    · simp [h1, h2] at hfa
    · simp [h1, h2] at hfa
      subst hfa
      refine ⟨h1, pyStrip_idem a, by simpa using h2, ?_⟩
      intro hmem
      exact pySplit_no_sep '\n' text a ha (mem_of_mem_pyStrip hmem)

theorem cleanedLines_fixed {L : List Str}
    (h : ∀ l ∈ L, l ≠ [] ∧ pyStrip l = l ∧ isNoise l = false) :
    L.filterMap (fun l0 =>
      let l := pyStrip l0
      if l = [] then none else if isNoise l then none else some l) = L := by
  induction L with
  | nil => rfl
  | cons x xs ih =>
    obtain ⟨hne, hstr, hnoise⟩ := h x (List.mem_cons_self x xs)
    simp only [List.filterMap_cons, hstr, hne, hnoise]
    simp only [if_neg hne, Bool.false_eq_true, if_false]
    rw [ih (fun l hli => h l (List.mem_cons_of_mem _ hli))]

/-- The noise filter is idempotent. -/
theorem remove_social_media_noise_idempotent (text : Str) :
    remove_social_media_noise (remove_social_media_noise text) =
      remove_social_media_noise text := by
  unfold remove_social_media_noise
  rcases hL : cleanedLines text with _ | ⟨l, ls⟩
  · rfl
  · have hsplit : pySplit '\n' (pyJoin '\n' (l :: ls)) = l :: ls :=
      pySplit_pyJoin (by simp)
        (fun x hx => (mem_cleanedLines (hL ▸ hx)).2.2.2)
    have : cleanedLines (pyJoin '\n' (l :: ls)) = l :: ls := by
      unfold cleanedLines
      rw [hsplit]
      exact cleanedLines_fixed (fun x hx =>
        ⟨(mem_cleanedLines (hL ▸ hx)).1, (mem_cleanedLines (hL ▸ hx)).2.1,
         (mem_cleanedLines (hL ▸ hx)).2.2.1⟩)
    rw [this]

/-- If some character of the pattern never occurs in `s`, the replacement
is a no-op. -/
theorem pyReplace_no_occur {s pat rep : Str} {c : Char}
    (hc : c ∈ pat) (hs : c ∉ s) : pyReplace s pat rep = s := by
  induction s with
  | nil =>
    rw [pyReplace_eq]
    split <;> rfl
  | cons x xs ih =>
    rw [pyReplace_eq]
    have hpl : ¬ pat.length = 0 := by
      intro h
      rw [List.length_eq_zero] at h
      subst h
      exact hs.elim (absurd hc (List.not_mem_nil c))
    rw [if_neg hpl]
    have hnp : pat.isPrefixOf (x :: xs) = false := by
      by_contra hp
      rw [Bool.not_eq_false] at hp
      rw [List.isPrefixOf_iff_prefix] at hp
      exact hs (hp.subset hc)
    simp only [hnp, Bool.false_eq_true, if_false]
    rw [ih (fun h => hs (List.mem_cons_of_mem _ h))]

/-- Replacing a pattern that sits as a literal prefix. -/
theorem pyReplace_cons_pat {pat rest rep : Str} (hp : pat ≠ []) :
    pyReplace (pat ++ rest) pat rep = rep ++ pyReplace rest pat rep := by
  rw [pyReplace_eq]
  have hpl : ¬ pat.length = 0 := by
    intro h
    exact hp (List.length_eq_zero.mp h)
  rw [if_neg hpl]
  cases hpr : pat ++ rest with
  | nil =>
    rcases List.append_eq_nil.mp hpr with ⟨h1, _⟩
    exact absurd h1 hp
  | cons y ys =>
    have hpre : pat.isPrefixOf (y :: ys) = true := by
      rw [List.isPrefixOf_iff_prefix, ← hpr]
      exact ⟨rest, rfl⟩
    simp only [hpre, if_true]
    rw [← hpr, List.drop_append_of_le_length (le_refl _), List.drop_length,
      List.nil_append]

/-- Scanning past characters that cannot start the pattern. -/
theorem pyReplace_append_left {s rest pat rep : Str} {p : Char} {ps : Str}
    (hpat : pat = p :: ps) (h : ∀ x ∈ s, x ≠ p) :
    pyReplace (s ++ rest) pat rep = s ++ pyReplace rest pat rep := by
  induction s with
  | nil => simp
  | cons x xs ih =>
    rw [pyReplace_eq]
    have hpl : ¬ pat.length = 0 := by
      subst hpat
      simp
    rw [if_neg hpl]
    have hnp : pat.isPrefixOf (x :: (xs ++ rest)) = false := by
      subst hpat
      by_contra hp
      rw [Bool.not_eq_false, List.isPrefixOf_iff_prefix] at hp
      obtain ⟨t, ht⟩ := hp
      rw [List.cons_append] at ht
      have := (List.cons.injEq _ _ _ _).mp ht
      exact h x (List.mem_cons_self x xs) this.1.symm
    simp only [List.cons_append, hnp, Bool.false_eq_true, if_false]
    rw [ih (fun y hy => h y (List.mem_cons_of_mem _ hy))]

theorem isCanonicalId_shape {id : Str} (h : isCanonicalId id = true) :
    ∃ d8 d4 : Str, id = "fsc_pen_".data ++ d8 ++ '_' :: d4 ∧
      d8.length = 8 ∧ d4.length = 4 ∧
      d8.all isAsciiDigit = true ∧ d4.all isAsciiDigit = true := by
  unfold isCanonicalId at h
  simp only [Bool.and_eq_true, decide_eq_true_eq] at h
  obtain ⟨⟨⟨⟨hlen, hpre⟩, hd8⟩, hu⟩, hd4⟩ := h
  rw [List.isPrefixOf_iff_prefix] at hpre
  obtain ⟨t, ht⟩ := hpre
  refine ⟨(id.drop 8).take 8, id.drop 17, ?_, ?_, ?_, hd8, hd4⟩
  · have h16 : id.drop 16 = '_' :: id.drop 17 := by
      rcases h16eq : id.drop 16 with _ | ⟨y, ys⟩
      · simp [h16eq] at hu
      · simp [h16eq] at hu
        subst hu
        have : ys = id.drop 17 := by
          have : (id.drop 16).drop 1 = id.drop 17 := by
            rw [List.drop_drop]
          rw [h16eq] at this
          simpa using this
        rw [this]
    have hsplit8 : id = id.take 8 ++ id.drop 8 := (List.take_append_drop 8 id).symm
    have htake8 : id.take 8 = "fsc_pen_".data := by
      rw [← ht]
      have : ("fsc_pen_".data).length = 8 := by decide
      rw [List.take_append_of_le_length (by rw [this])]
      rw [← this, List.take_length]
    have hsplit16 : id.drop 8 = (id.drop 8).take 8 ++ (id.drop 8).drop 8 :=
      (List.take_append_drop 8 (id.drop 8)).symm
    have hdd : (id.drop 8).drop 8 = id.drop 16 := by
      rw [List.drop_drop]
    calc id = id.take 8 ++ id.drop 8 := hsplit8
    _ = "fsc_pen_".data ++ ((id.drop 8).take 8 ++ (id.drop 8).drop 8) := by
        rw [htake8, ← hsplit16]
    _ = "fsc_pen_".data ++ (id.drop 8).take 8 ++ '_' :: id.drop 17 := by
        rw [hdd, h16, List.append_assoc]
  · simp [List.length_take, List.length_drop, hlen]
  · rw [List.length_drop, hlen]

theorem matchRE_lit_append {l rest : Str} {k : Str → Option α} :
    matchRE (.lit l) (l ++ rest) k = k rest := by
  unfold matchRE
  have hp : l.isPrefixOf (l ++ rest) = true := by
    rw [List.isPrefixOf_iff_prefix]
    exact ⟨rest, rfl⟩
  simp only [hp, if_true]
  rw [List.drop_append_of_le_length (le_refl _), List.drop_length, List.nil_append]

theorem matchRE_digits_append {d rest : Str} {n : Nat} {k : Str → Option α}
    (hlen : d.length = n) (hdig : d.all isAsciiDigit = true) :
    matchRE (digitsRE n) (d ++ rest) k = k rest := by
  induction d generalizing n with
  | nil =>
    subst hlen
    simp [digitsRE, matchRE]
  | cons x xs ih =>
    subst hlen
    simp only [List.all_cons, Bool.and_eq_true] at hdig
    simp only [List.length_cons, digitsRE, matchRE, List.cons_append, hdig.1, if_true]
    exact ih rfl hdig.2

/-- On an exactly canonical id, the anchored pattern consumes the whole
string and group 1 is the id itself. -/
theorem matchRE_seq {a b : RE} {s : Str} {k : Str → Option α} :
    matchRE (.seq a b) s k = matchRE a s (fun s1 => matchRE b s1 k) := rfl

/-- On an exactly canonical id, the anchored pattern consumes the whole
string and group 1 is the id itself. -/
theorem canonMatch_canonical {id : Str} (h : isCanonicalId id = true) :
    canonMatch id = some id := by
  obtain ⟨d8, d4, hshape, h8, h4, hd8, hd4⟩ := isCanonicalId_shape h
  subst hshape
  unfold canonMatch
  rw [List.append_assoc, matchRE_seq, matchRE_lit_append, matchRE_seq,
    matchRE_digits_append h8 hd8, matchRE_seq]
  rw [show ('_' :: d4 : Str) = "_".data ++ d4 from rfl, matchRE_lit_append]
  have hd := @matchRE_digits_append _ d4 ([] : Str) 4
    (fun rest => some ((("fsc_pen_".data ++ (d8 ++ "_".data ++ d4)).take
      (("fsc_pen_".data ++ (d8 ++ "_".data ++ d4)).length - rest.length))))
    h4 hd4
  rw [List.append_nil] at hd
  simp only [List.append_assoc] at hd ⊢
  rw [hd]
  simp

theorem pyReplace_nil (pat rep : Str) : pyReplace [] pat rep = [] := rfl

theorem pyReplace_self {pat rep : Str} (hp : pat ≠ []) :
    pyReplace pat pat rep = rep := by
  have h2 := @pyReplace_cons_pat pat ([] : Str) rep hp
  rw [List.append_nil] at h2
  rw [h2, pyReplace_nil, List.append_nil]

theorem canonical_no_char {id : Str} (h : isCanonicalId id = true) {c : Char}
    (hc1 : isAsciiDigit c = false) (hc2 : c ∉ "fsc_pen_".data) (hc3 : c ≠ '_') :
    c ∉ id := by
  obtain ⟨d8, d4, hshape, _, _, hd8, hd4⟩ := isCanonicalId_shape h
  subst hshape
  intro hmem
  rcases List.mem_append.mp hmem with hm | hm
  · rcases List.mem_append.mp hm with hm2 | hm2
    · exact hc2 hm2
    · rw [List.all_eq_true] at hd8
      rw [hd8 c hm2] at hc1
      cases hc1
  · rcases List.mem_cons.mp hm with hm2 | hm2
    · exact hc3 hm2
    · rw [List.all_eq_true] at hd4
      rw [hd4 c hm2] at hc1
      cases hc1

/-- C7 helper: cleaning a decorated canonical filename recovers the id. -/
theorem clean_canonical {id : Str} (h : isCanonicalId id = true) (pre suf : Bool) :
    pyReplace (pyReplace ((if pre then "files/".data else []) ++ id ++
        (if suf then ".md".data else [])) "files/".data [])
      ".md".data [] = id := by
  have hi : ('i' : Char) ∉ id ++ (if suf then ".md".data else []) := by
    intro hm
    rcases List.mem_append.mp hm with hm | hm
    · exact canonical_no_char h (by decide) (by decide) (by decide) hm
    · cases suf with
      | true =>
        simp only [if_true] at hm
        revert hm
        decide
      | false =>
        simp only [if_false] at hm
        cases hm
  have hstep1 : pyReplace ((if pre then "files/".data else []) ++ id ++
      (if suf then ".md".data else [])) "files/".data [] =
      id ++ (if suf then ".md".data else []) := by
    cases pre with
    | true =>
      simp only [if_true, List.append_assoc]
      rw [pyReplace_cons_pat (by decide)]
      rw [List.nil_append]
      exact pyReplace_no_occur (c := 'i') (by decide) hi
    | false =>
      simp only [if_false, List.nil_append]
      exact pyReplace_no_occur (c := 'i') (by decide) hi
  rw [hstep1]
  have hdot : ∀ x ∈ id, x ≠ '.' := by
    intro x hx he
    exact canonical_no_char h (by decide) (by decide) (by decide) (he ▸ hx)
  cases suf with
  | true =>
    simp only [if_true]
    rw [pyReplace_append_left rfl hdot]
    rw [pyReplace_self (by decide), List.append_nil]
  | false =>
    rw [if_neg (by decide), List.append_nil]
    exact @pyReplace_no_occur id (".md".data) [] '.' (by decide)
      (fun hx => hdot '.' hx rfl)

-- probes for C1 counterexample

/-- C7: resolver fixed point — for a canonical id `fsc_pen_` + 8 digits +
`_` + 4 digits, resolving the id optionally wrapped with the `files/`
prefix and the `.md` suffix through `extract_file_id` (structural
fallback, no reverse map) returns exactly that id. -/
theorem C7_resolver_fixed_point (id : Str) (h : isCanonicalId id = true)
    (pre suf : Bool) :
    extract_file_id ((if pre then "files/".data else []) ++ id ++
      (if suf then ".md".data else [])) [] = some id := by
  show canonMatch (pyReplace (pyReplace ((if pre then "files/".data else []) ++ id ++
    (if suf then ".md".data else [])) "files/".data []) ".md".data []) = some id
  rw [clean_canonical h pre suf]
  exact canonMatch_canonical h

theorem C7_witness :
    isCanonicalId "fsc_pen_20230101_0001".data = true ∧
    extract_file_id ((if true then "files/".data else []) ++ "fsc_pen_20230101_0001".data ++
      (if true then ".md".data else [])) [] = some "fsc_pen_20230101_0001".data :=
  ⟨by decide, C7_resolver_fixed_point "fsc_pen_20230101_0001".data (by decide) true true⟩

/-- C6: when the reverse-map lookup misses and the cleaned identifier does
not match the anchored canonical pattern, `extract_file_id` returns `none`
— never the raw identifier. -/
theorem C6_unresolved_is_none (filename : Str) (gmap : List (Str × Str))
    (h1 : gmap = [] ∨
      alookup ("files/".data ++ pyReplace filename "files/".data []) gmap = none)
    (h2 : canonMatch (pyReplace (pyReplace filename "files/".data [])
      ".md".data []) = none) :
    extract_file_id filename gmap = none := by
  unfold extract_file_id
  cases gmap with
  | nil => exact h2
  | cons g gs =>
    rcases h1 with h1 | h1
    · cases h1
    · simp only [h1]
      exact h2

theorem C6_witness :
    (([] : List (Str × Str)) = [] ∨
      alookup ("files/".data ++ pyReplace "fsc_pen_99999999_abcd.md".data "files/".data [])
        ([] : List (Str × Str)) = none) ∧
    canonMatch (pyReplace (pyReplace "fsc_pen_99999999_abcd.md".data "files/".data [])
      ".md".data []) = none ∧
    extract_file_id "fsc_pen_99999999_abcd.md".data [] = none :=
  ⟨Or.inl rfl, by decide,
    C6_unresolved_is_none "fsc_pen_99999999_abcd.md".data [] (Or.inl rfl) (by decide)⟩

/-- C10: every kept line of the noise filter is non-empty and stripped,
and the output is exactly the newline-join of those lines. -/
theorem C10_output_lines (text : Str) :
    remove_social_media_noise text = pyJoin '\n' (cleanedLines text) ∧
    ∀ l ∈ cleanedLines text, l ≠ [] ∧ pyStrip l = l :=
  ⟨rfl, fun _ hl => ⟨(mem_cleanedLines hl).1, (mem_cleanedLines hl).2.1⟩⟩

theorem C10_witness :
    "x".data ∈ cleanedLines " x \n:::".data ∧
    ("x".data ≠ [] ∧ pyStrip "x".data = "x".data) :=
  ⟨by decide, (C10_output_lines " x \n:::".data).2 "x".data (by decide)⟩

/-- C3 (amended): the noise filter is idempotent; the two linkers are not
idempotent in general (see the counterexample). -/
theorem C3_noise_filter_idempotent (text : Str) :
    remove_social_media_noise (remove_social_media_noise text) =
      remove_social_media_noise text :=
  remove_social_media_noise_idempotent text

/-- C3 counterexample: neither linker is idempotent. Re-running the
law-citation linker on its own output inserts a second, nested link for
the suffix key; and re-running the case-title linker on its own output
links a heading that the first pass created out of a URL containing a
newline, because the heading pattern matches the new line and the second
URL of the list is still available for it. -/
theorem C3_counterexample :
    add_law_links_to_text
      (add_law_links_to_text "甲甲法第1條第2項".data
        [("甲甲法第1條".data, "u1".data), ("甲法第1條".data, "u3".data)])
      [("甲甲法第1條".data, "u1".data), ("甲法第1條".data, "u3".data)] ≠
    add_law_links_to_text "甲甲法第1條第2項".data
      [("甲甲法第1條".data, "u1".data), ("甲法第1條".data, "u3".data)] ∧
    insert_case_links_by_order
      (insert_case_links_by_order "### 1. A".data
        ["x)\n### 2. B".data, "u".data])
      ["x)\n### 2. B".data, "u".data] ≠
    insert_case_links_by_order "### 1. A".data
      ["x)\n### 2. B".data, "u".data] := by
  refine ⟨by decide, by decide⟩

/-- C1 (amended): the answer text shown by `main` is the generated text
transformed by the case-title linker with the date-ranked URL list, and
nothing else: `main` contains no call to the law-citation linker on the
answer, even though it still assembles the table `all_law_links` from the
ranked records; the pipeline the specification describes would further
apply the law-citation linker with that assembled table. -/
theorem C1_displayed_answer (text : Str) (sources : List SourceItem)
    (mapping : List (Str × FileInfo)) (gmap : List (Str × Str)) :
    mainAnnotatedAnswer text sources mapping gmap =
      insert_case_links_by_order text (mainCaseUrls sources mapping gmap) ∧
    specAnnotatedAnswer text sources mapping gmap =
      add_law_links_to_text (mainAnnotatedAnswer text sources mapping gmap)
        (mainLawLinks sources mapping gmap) := ⟨rfl, rfl⟩

/-- C1 counterexample: with a non-empty source list whose assembled
citation table is non-empty, the displayed answer is not the case-linked
text further transformed by the law-citation linker, so the specified
two-stage pipeline is not what is shown. -/
theorem C1_counterexample :
    ([⟨"fsc_pen_20230101_0001.md".data, "snip".data⟩] : List SourceItem) ≠ [] ∧
    mainLawLinks [⟨"fsc_pen_20230101_0001.md".data, "snip".data⟩]
      [("fsc_pen_20230101_0001".data,
        ⟨"案".data, "2023-01-01".data, "http://case/1".data,
         [("甲法第1條".data, "https://law/1".data)]⟩)] [] ≠ [] ∧
    mainAnnotatedAnswer "### 1. 某案\n依甲法第1條處理".data
      [⟨"fsc_pen_20230101_0001.md".data, "snip".data⟩]
      [("fsc_pen_20230101_0001".data,
        ⟨"案".data, "2023-01-01".data, "http://case/1".data,
         [("甲法第1條".data, "https://law/1".data)]⟩)] [] ≠
    specAnnotatedAnswer "### 1. 某案\n依甲法第1條處理".data
      [⟨"fsc_pen_20230101_0001.md".data, "snip".data⟩]
      [("fsc_pen_20230101_0001".data,
        ⟨"案".data, "2023-01-01".data, "http://case/1".data,
         [("甲法第1條".data, "https://law/1".data)]⟩)] [] := by
  refine ⟨by decide, by decide, by decide⟩

/-! ### The matcher consumes a prefix: inversion lemmas -/
theorem starGreedy_suffix {p : Char → Bool} {k : Str → Option α} :
    ∀ {s : Str} {v : α}, starGreedy p k s = some v →
      ∃ s1, s1 <:+ s ∧ k s1 = some v := by
  intro s
  induction s with
  | nil =>
    intro v h
    exact ⟨[], List.suffix_refl [], h⟩
  | cons c s ih =>
    intro v h
    simp only [starGreedy] at h
    by_cases hp : p c
    · rw [if_pos hp] at h
      rcases hsg : starGreedy p k s with _ | w
      · rw [hsg] at h
        exact ⟨c :: s, List.suffix_refl _, h⟩
      · rw [hsg] at h
        obtain ⟨s1, hsuf, hk⟩ := ih (hsg.trans (congrArg some (Option.some.inj h)))
        exact ⟨s1, hsuf.trans (List.suffix_cons c s), hk⟩
    · rw [if_neg hp] at h
      exact ⟨c :: s, List.suffix_refl _, h⟩

theorem starLazy_suffix {p : Char → Bool} {k : Str → Option α} :
    ∀ {s : Str} {v : α}, starLazy p k s = some v →
      ∃ s1, s1 <:+ s ∧ k s1 = some v := by
  intro s
  induction s with
  | nil =>
    intro v h
    exact ⟨[], List.suffix_refl [], h⟩
  | cons c s ih =>
    intro v h
    simp only [starLazy] at h
    rcases hk : k (c :: s) with _ | w
    · rw [hk] at h
      by_cases hp : p c
      · rw [if_pos hp] at h
        obtain ⟨s1, hsuf, hk1⟩ := ih h
        exact ⟨s1, hsuf.trans (List.suffix_cons c s), hk1⟩
      · rw [if_neg hp] at h
        cases h
    · rw [hk] at h
      exact ⟨c :: s, List.suffix_refl _, h ▸ hk⟩

/-- Any successful `matchRE` run hands the continuation a suffix of its
input. -/
theorem matchRE_suffix {r : RE} : ∀ {s : Str} {k : Str → Option α} {v : α},
    matchRE r s k = some v → ∃ s1, s1 <:+ s ∧ k s1 = some v := by
  induction r with
  | eps =>
    intro s k v h
    exact ⟨s, List.suffix_refl s, h⟩
  | cls p =>
    intro s k v h
    cases s with
    | nil => cases h
    | cons c s1 =>
      simp only [matchRE] at h
      by_cases hp : p c
      · rw [if_pos hp] at h
        exact ⟨s1, List.suffix_cons c s1, h⟩
      · rw [if_neg hp] at h
        cases h
  | lit l =>
    intro s k v h
    simp only [matchRE] at h
    by_cases hp : l.isPrefixOf s = true
    · rw [if_pos hp] at h
      exact ⟨s.drop l.length, List.drop_suffix _ s, h⟩
    · rw [if_neg hp] at h
      cases h
  | seq a b iha ihb =>
    intro s k v h
    simp only [matchRE] at h
    obtain ⟨s1, hsuf1, h1⟩ := iha h
    obtain ⟨s2, hsuf2, h2⟩ := ihb h1
    exact ⟨s2, hsuf2.trans hsuf1, h2⟩
  | opt a iha =>
    intro s k v h
    simp only [matchRE] at h
    rcases ha : matchRE a s k with _ | w
    · rw [ha] at h
      exact ⟨s, List.suffix_refl s, h⟩
    · rw [ha] at h
      obtain ⟨s1, hsuf, h1⟩ := iha (ha.trans (congrArg some (Option.some.inj h)))
      exact ⟨s1, hsuf, h1⟩
  | star p =>
    intro s k v h
    exact starGreedy_suffix h
  | plus p =>
    intro s k v h
    cases s with
    | nil => cases h
    | cons c s1 =>
      simp only [matchRE] at h
      by_cases hp : p c
      · rw [if_pos hp] at h
        obtain ⟨s2, hsuf, h2⟩ := starGreedy_suffix h
        exact ⟨s2, hsuf.trans (List.suffix_cons c s1), h2⟩
      · rw [if_neg hp] at h
        cases h
  | lazyPlus p =>
    intro s k v h
    cases s with
    | nil => cases h
    | cons c s1 =>
      simp only [matchRE] at h
      by_cases hp : p c
      · rw [if_pos hp] at h
        obtain ⟨s2, hsuf, h2⟩ := starLazy_suffix h
        exact ⟨s2, hsuf.trans (List.suffix_cons c s1), h2⟩
      · rw [if_neg hp] at h
        cases h
  | nchk p =>
    intro s k v h
    cases s with
    | nil => exact ⟨[], List.suffix_refl [], h⟩
    | cons c s1 =>
      simp only [matchRE] at h
      by_cases hp : p c
      · rw [if_pos hp] at h
        cases h
      · rw [if_neg hp] at h
        exact ⟨c :: s1, List.suffix_refl _, h⟩
  | dollar =>
    intro s k v h
    simp only [matchRE] at h
    by_cases hd : s = [] ∨ s = ['\n']
    · rw [if_pos hd] at h
      exact ⟨s, List.suffix_refl s, h⟩
    · rw [if_neg hd] at h
      cases h

/-! ### Heading matches are ordered, disjoint and in bounds -/
theorem headTry_bounds {t : Str} {i g e : Nat} (hi : i ≤ t.length)
    (h : headTry t i = some (g, e)) :
    i ≤ g ∧ g ≤ e ∧ e ≤ t.length := by
  unfold headTry at h
  obtain ⟨s1, hsuf1, h1⟩ := matchRE_suffix h
  obtain ⟨s2, hsuf2, h2⟩ := matchRE_suffix h1
  have hs1 : s1.length ≤ (t.drop i).length := hsuf1.length_le
  have hs2 : s2.length ≤ s1.length := hsuf2.length_le
  rw [List.length_drop] at hs1
  cases h2
  refine ⟨?_, ?_, ?_⟩ <;> omega

theorem ChainPieces.weaken {t : Str} {p1 p2 : Nat} {ps : List (Nat × Nat × Nat)}
    (h : ChainPieces t p2 ps) (hle : p1 ≤ p2) : ChainPieces t p1 ps := by
  cases ps with
  | nil => trivial
  | cons m rest =>
    obtain ⟨h1, h2⟩ := h
    exact ⟨le_trans hle h1, h2⟩

theorem headIterAux_chain (t : Str) :
    ∀ (fuel i : Nat), ChainPieces t i (headIterAux t fuel i) := by
  intro fuel
  induction fuel with
  | zero =>
    intro i
    trivial
  | succ fuel ih =>
    intro i
    simp only [headIterAux]
    by_cases hlen : t.length < i
    · rw [if_pos hlen]
      trivial
    · rw [if_neg hlen]
      rcases hh : headTry t i with _ | ⟨g, e⟩
      · exact (ih (i + 1)).weaken (by omega)
      · obtain ⟨hig, hge, hel⟩ := headTry_bounds (by omega) hh
        show ChainPieces t i (if i < e then (i, g, e) :: headIterAux t fuel e
          else (i, g, e) :: headIterAux t fuel (i + 1))
        by_cases hie : i < e
        · rw [if_pos hie]
          exact ⟨le_refl i, hig, hge, hel, ih e⟩
        · rw [if_neg hie]
          exact ⟨le_refl i, hig, hge, hel, (ih (i + 1)).weaken (by omega)⟩

theorem headingMatches_chain (t : Str) : ChainPieces t 0 (headingMatches t) :=
  headIterAux_chain t (t.length + 1) 0

theorem take_of_take_append {t z : Str} {s e : Nat} (hse : s ≤ e)
    (hel : e ≤ t.length) : (t.take e ++ z).take s = t.take s := by
  rw [List.take_append_of_le_length (by rw [List.length_take]; omega)]
  rw [List.take_take, min_eq_left hse]

theorem drop_of_take_append {t z : Str} {e : Nat} (hel : e ≤ t.length) :
    (t.take e ++ z).drop e = z := by
  rw [List.drop_append_of_le_length (by rw [List.length_take]; omega)]
  rw [List.drop_take, Nat.sub_self, List.take_zero, List.nil_append]

theorem take_add_slice {t : Str} {s e : Nat} (hse : s ≤ e) :
    t.take s ++ (t.take e).drop s = t.take e := by
  have h : (t.take e).take s = t.take s := by
    rw [List.take_take, min_eq_left hse]
  rw [← h, List.take_append_drop]

/-- The reversed-order rewriting loop of the case linker equals the
left-to-right simultaneous splice of its per-heading replacements. -/
theorem goCase_splice (t : Str) (urls : List Str) :
    ∀ (ps : List (Nat × Nat × Nat)) (pos i0 : Nat), ChainPieces t pos ps →
      goCase t urls (List.enumFrom i0 ps) =
        t.take pos ++ spliceLTR t pos
          ((List.enumFrom i0 ps).map
            (fun p => (p.2.1, p.2.2.2, caseReplacement t urls p.1 p.2))) := by
  intro ps
  induction ps with
  | nil =>
    intro pos i0 _
    simp [goCase, spliceLTR, List.enumFrom, List.take_append_drop]
  | cons m rest ih =>
    intro pos i0 hch
    obtain ⟨s, g, e⟩ := m
    obtain ⟨hps, hsg, hge, hel, hrest⟩ := hch
    have hse : s ≤ e := le_trans hsg hge
    have hr := ih e (i0 + 1) hrest
    simp only [List.enumFrom, List.map_cons, goCase, spliceLTR]
    rw [hr]
    unfold caseEdit
    simp only [caseReplacement, pySlice]
    by_cases hu : urls.length ≤ i0
    · rw [if_pos hu, if_pos hu]
      simp only [← List.append_assoc]
      rw [take_add_slice hps, take_add_slice hse]
    · rw [if_neg hu, if_neg hu]
      by_cases hlink : isLinkedTitle (pyStrip ((t.take e).drop g)) = true
      · rw [if_pos hlink, if_pos hlink]
        simp only [← List.append_assoc]
        rw [take_add_slice hps, take_add_slice hse]
      · rw [if_neg hlink, if_neg hlink]
        rw [take_of_take_append hse hel, drop_of_take_append hel]
        simp only [← List.append_assoc]
        rw [take_add_slice hps]

theorem drop_take_split {t : Str} {pos s e : Nat} (hps : pos ≤ s) (hse : s ≤ e)
    (hel : e ≤ t.length) :
    (t.take s).drop pos ++ (t.take e).drop s = (t.take e).drop pos := by
  have h1 : t.take e = t.take s ++ (t.take e).drop s := (take_add_slice hse).symm
  conv_rhs => rw [h1]
  rw [List.drop_append_of_le_length (by rw [List.length_take]; omega)]

theorem drop_append_drop {t : Str} {pos e : Nat} (hpe : pos ≤ e) (hel : e ≤ t.length) :
    (t.take e).drop pos ++ t.drop e = t.drop pos := by
  conv_rhs => rw [show t = t.take e ++ t.drop e from (List.take_append_drop e t).symm]
  rw [List.drop_append_of_le_length (by rw [List.length_take]; omega)]

/-- With no URLs every replacement is the identity slice and the splice
reproduces the text. -/
theorem spliceLTR_identity (t : Str) :
    ∀ (ps : List (Nat × Nat × Nat)) (pos i0 : Nat), ChainPieces t pos ps →
      spliceLTR t pos ((List.enumFrom i0 ps).map
        (fun p => (p.2.1, p.2.2.2, caseReplacement t [] p.1 p.2))) = t.drop pos := by
  intro ps
  induction ps with
  | nil =>
    intro pos i0 _
    rfl
  | cons m rest ih =>
    intro pos i0 hch
    obtain ⟨s, g, e⟩ := m
    obtain ⟨hps, hsg, hge, hel, hrest⟩ := hch
    have hse : s ≤ e := le_trans hsg hge
    simp only [List.enumFrom, List.map_cons, spliceLTR]
    rw [ih e (i0 + 1) hrest]
    simp only [caseReplacement, pySlice, if_pos (Nat.zero_le i0), List.length_nil]
    rw [drop_take_split hps hse hel, drop_append_drop (le_trans hps hse) hel]

/-- C9: the case-title linker equals the simultaneous splice that sends
the `i`-th ordinal heading's (stripped) title to the `i`-th URL, keeps
headings beyond the URL list unchanged (no error), and keeps headings
whose title is already in link form (`[` prefix and `](` present)
unchanged. -/
theorem C9_case_linker_splice (t : Str) (urls : List Str) :
    insert_case_links_by_order t urls = spliceLTR t 0 (caseLinkPieces t urls) := by
  unfold insert_case_links_by_order caseLinkPieces
  cases urls with
  | nil =>
    have h := spliceLTR_identity t (headingMatches t) 0 0 (headingMatches_chain t)
    rw [List.drop_zero] at h
    rw [show (headingMatches t).enum = List.enumFrom 0 (headingMatches t) from rfl]
    exact h.symm
  | cons u us =>
    have h := goCase_splice t (u :: us) (headingMatches t) 0 0 (headingMatches_chain t)
    rw [List.take_zero, List.nil_append] at h
    cases hms : headingMatches t with
    | nil => rfl
    | cons m ms =>
      rw [hms] at h
      rw [show (List.enum (m :: ms)) = List.enumFrom 0 (m :: ms) from rfl]
      exact h

/-- C2: at this input the recorded `replaced_positions` go stale after the
earlier-offset replacements lengthen the buffer, and the linker inserts a
link span strictly inside an earlier inserted span — two inserted spans
of one call intersect in the final string. -/
theorem C2_overlapping_spans_at_failing_input :
    ∃ x ∈ (addLawLinksCore
        "甲甲法第1條第2項。甲甲法第1條第2項。甲甲法第1條第2項".data
        [("甲甲法第1條".data, "12345".data), ("甲法第1條".data, "uA".data)]).spans,
      ∃ y ∈ (addLawLinksCore
        "甲甲法第1條第2項。甲甲法第1條第2項。甲甲法第1條第2項".data
        [("甲甲法第1條".data, "12345".data), ("甲法第1條".data, "uA".data)]).spans,
      x ≠ y ∧ x.s < y.e ∧ y.s < x.e := by
  decide

/-- C5: key `甲法第1條` is a proper suffix of key `甲甲法第1條`; at this
input the long key is linked first, but after the stale-offset overlap
check fails, the suffix key's URL is additionally linked inside the long
key's span — the location does not carry only the longer key's link. -/
theorem C5_suffix_key_linked_inside_longer :
    "甲法第1條".data.isSuffixOf "甲甲法第1條".data = true ∧
    "甲法第1條".data ≠ "甲甲法第1條".data ∧
    ∃ x ∈ (addLawLinksCore
        "甲甲法第1條第2項。甲甲法第1條第2項。甲甲法第1條第2項".data
        [("甲甲法第1條".data, "pqr".data), ("甲法第1條".data, "uZ".data)]).spans,
      ∃ y ∈ (addLawLinksCore
        "甲甲法第1條第2項。甲甲法第1條第2項。甲甲法第1條第2項".data
        [("甲甲法第1條".data, "pqr".data), ("甲法第1條".data, "uZ".data)]).spans,
      x.key = "甲甲法第1條".data ∧ y.key = "甲法第1條".data ∧
      y.url = "uZ".data ∧ x.s ≤ y.s ∧ y.e ≤ x.e ∧ y.s < y.e := by
  decide

/-! ### Inversion and success lemmas for the connector splits -/
theorem matchRE_cls_inv {p : Char → Bool} {s : Str} {k : Str → Option α} {v : α}
    (h : matchRE (.cls p) s k = some v) :
    ∃ c s1, s = c :: s1 ∧ p c = true ∧ k s1 = some v := by
  cases s with
  | nil => cases h
  | cons c s1 =>
    simp only [matchRE] at h
    by_cases hp : p c
    · rw [if_pos hp] at h
      exact ⟨c, s1, rfl, hp, h⟩
    · rw [if_neg hp] at h
      cases h

theorem starGreedy_inv {p : Char → Bool} {k : Str → Option α} :
    ∀ {s : Str} {v : α}, starGreedy p k s = some v →
      ∃ ws s1, s = ws ++ s1 ∧ (∀ x ∈ ws, p x = true) ∧ k s1 = some v := by
  intro s
  induction s with
  | nil =>
    intro v h
    exact ⟨[], [], rfl, by simp, h⟩
  | cons c s ih =>
    intro v h
    simp only [starGreedy] at h
    by_cases hp : p c
    · rw [if_pos hp] at h
      rcases hsg : starGreedy p k s with _ | w
      · rw [hsg] at h
        exact ⟨[], c :: s, rfl, by simp, h⟩
      · rw [hsg] at h
        obtain ⟨ws, s1, heq, hws, hk⟩ := ih (hsg.trans (congrArg some (Option.some.inj h)))
        refine ⟨c :: ws, s1, by rw [List.cons_append, ← heq], ?_, hk⟩
        intro x hx
        rcases List.mem_cons.mp hx with hx | hx
        · rw [hx]; exact hp
        · exact hws x hx
    · rw [if_neg hp] at h
      exact ⟨[], c :: s, rfl, by simp, h⟩

theorem matchRE_plus_inv {p : Char → Bool} {s : Str} {k : Str → Option α} {v : α}
    (h : matchRE (.plus p) s k = some v) :
    ∃ g s1, s = g ++ s1 ∧ g ≠ [] ∧ (∀ x ∈ g, p x = true) ∧ k s1 = some v := by
  cases s with
  | nil => cases h
  | cons c s0 =>
    simp only [matchRE] at h
    by_cases hp : p c
    · rw [if_pos hp] at h
      obtain ⟨ws, s1, heq, hws, hk⟩ := starGreedy_inv h
      refine ⟨c :: ws, s1, by rw [List.cons_append, ← heq], by simp, ?_, hk⟩
      intro x hx
      rcases List.mem_cons.mp hx with hx | hx
      · rw [hx]; exact hp
      · exact hws x hx
    · rw [if_neg hp] at h
      cases h

theorem matchRE_opt_inv {a : RE} {s : Str} {k : Str → Option α} {v : α}
    (h : matchRE (.opt a) s k = some v) :
    matchRE a s k = some v ∨ (matchRE a s k = none ∧ k s = some v) := by
  simp only [matchRE] at h
  rcases ha : matchRE a s k with _ | w
  · rw [ha] at h
    exact Or.inr ⟨rfl, h⟩
  · rw [ha] at h
    exact Or.inl h

theorem matchRE_dollar_inv {s : Str} {k : Str → Option α} {v : α}
    (h : matchRE .dollar s k = some v) :
    (s = [] ∨ s = ['\n']) ∧ k s = some v := by
  simp only [matchRE] at h
  by_cases hd : s = [] ∨ s = ['\n']
  · rw [if_pos hd] at h
    exact ⟨hd, h⟩
  · rw [if_neg hd] at h
    cases h

/-- A greedy star run whose continuation succeeds on the empty rest
succeeds after consuming everything that satisfies the class. -/
theorem starGreedy_all {p : Char → Bool} {k : Str → Option α} {v : α} :
    ∀ {s : Str}, (∀ x ∈ s, p x = true) → k [] = some v →
      starGreedy p k s = some v := by
  intro s
  induction s with
  | nil =>
    intro _ hk
    exact hk
  | cons c s ih =>
    intro hall hk
    simp only [starGreedy]
    rw [if_pos (hall c (List.mem_cons_self c s))]
    rw [ih (fun x hx => hall x (List.mem_cons_of_mem _ hx)) hk]

/-- The tail `(.+)$` composed with a never-failing continuation succeeds on a
non-empty newline-free input, consuming all of it. -/
theorem plusDollar_succeeds {s : Str} {k : Str → Option α} {v : α}
    (hne : s ≠ []) (hnl : ∀ x ∈ s, notNL x = true) (hk : k [] = some v) :
    matchRE (.seq (.plus notNL) .dollar) s k = some v := by
  cases s with
  | nil => exact absurd rfl hne
  | cons c s0 =>
    simp only [matchRE]
    rw [if_pos (hnl c (List.mem_cons_self c s0))]
    have hd : matchRE .dollar [] k = some v := by
      simp only [matchRE]
      simpa using hk
    exact starGreedy_all (fun x hx => hnl x (List.mem_cons_of_mem _ hx)) hd

theorem take_append_left {a b : Str} : (a ++ b).take a.length = a := by
  rw [List.take_append_of_le_length (le_refl _), List.take_length]

/-- Characterization of a successful phase-2 connector split. -/
theorem connSplit2_inv {m g1 g2 : Str} (h : connSplit2 m = some (g1, g2)) :
    ∃ c ws tl, g1 = c :: ws ∧ conn2 c = true ∧ (∀ x ∈ ws, pyIsSpace x = true) ∧
      g2 ≠ [] ∧ (∀ x ∈ g2, notNL x = true) ∧ m = (c :: ws) ++ g2 ++ tl := by
  unfold connSplit2 at h
  rw [matchRE_seq] at h
  obtain ⟨c, s1, hm, hc, h1⟩ := matchRE_cls_inv h
  obtain ⟨ws, r1, hs1, hws, h2⟩ := starGreedy_inv h1
  obtain ⟨g, rr, hr1, hgne, hg, h3⟩ := matchRE_plus_inv h2
  have hmlen : m.length - r1.length = ws.length + 1 := by
    rw [hm, hs1]
    simp only [List.length_cons, List.length_append]
    omega
  have hr1len : r1.length - rr.length = g.length := by
    rw [hr1]
    simp only [List.length_append]
    omega
  rw [hmlen, hr1len] at h3
  have htake1 : m.take (ws.length + 1) = c :: ws := by
    rw [hm, hs1, List.take_succ_cons]
    congr 1
    exact take_append_left
  have htake2 : r1.take g.length = g := by
    rw [hr1]
    exact take_append_left
  rw [htake1, htake2] at h3
  obtain ⟨hg1, hg2⟩ := Prod.mk.injEq .. ▸ Option.some.inj h3
  refine ⟨c, ws, rr, hg1.symm, hc, hws, ?_, ?_, ?_⟩
  · rw [← hg2]; exact hgne
  · rw [← hg2]; exact hg
  · rw [hm, hs1, hr1, ← hg2]
    simp

/-- Characterization of a successful phase-1 connector split: the matched
text splits as optional connector run + link body + at most a trailing
newline. -/
theorem connSplit1_inv {m g1 g2 : Str} (h : connSplit1 m = some (g1, g2)) :
    ∃ tl, (tl = [] ∨ tl = ['\n']) ∧ m = g1 ++ g2 ++ tl ∧ g2 ≠ [] ∧
      (∀ x ∈ g2, notNL x = true) ∧
      (g1 = [] ∨ ∃ c ws, g1 = c :: ws ∧ conn1 c = true ∧ ∀ x ∈ ws, pyIsSpace x = true) := by
  unfold connSplit1 at h
  rcases matchRE_opt_inv h with hin | ⟨_, hskip⟩
  · rw [matchRE_seq] at hin
    obtain ⟨c, s1, hm, hc, h1⟩ := matchRE_cls_inv hin
    obtain ⟨ws, r1, hs1, hws, h2⟩ := starGreedy_inv h1
    rw [matchRE_seq] at h2
    obtain ⟨g, rr, hr1, hgne, hg, h3⟩ := matchRE_plus_inv h2
    obtain ⟨hrr, h4⟩ := matchRE_dollar_inv h3
    have hmlen : m.length - r1.length = ws.length + 1 := by
      rw [hm, hs1]
      simp only [List.length_cons, List.length_append]
      omega
    have hr1len : r1.length - rr.length = g.length := by
      rw [hr1]
      simp only [List.length_append]
      omega
    rw [hmlen, hr1len] at h4
    have htake1 : m.take (ws.length + 1) = c :: ws := by
      rw [hm, hs1, List.take_succ_cons]
      congr 1
      exact take_append_left
    have htake2 : r1.take g.length = g := by
      rw [hr1]
      exact take_append_left
    rw [htake1, htake2] at h4
    obtain ⟨hg1, hg2⟩ := Prod.mk.injEq .. ▸ Option.some.inj h4
    refine ⟨rr, hrr, ?_, ?_, ?_, Or.inr ⟨c, ws, hg1.symm, hc, hws⟩⟩
    · rw [hm, hs1, hr1, ← hg1, ← hg2]
      simp
    · rw [← hg2]; exact hgne
    · rw [← hg2]; exact hg
  · rw [matchRE_seq] at hskip
    obtain ⟨g, rr, hmeq, hgne, hg, h3⟩ := matchRE_plus_inv hskip
    obtain ⟨hrr, h4⟩ := matchRE_dollar_inv h3
    have hmlen : m.length - m.length = 0 := Nat.sub_self _
    have hmlen2 : m.length - rr.length = g.length := by
      rw [hmeq]
      simp only [List.length_append]
      omega
    rw [hmlen, hmlen2] at h4
    have htake2 : m.take g.length = g := by
      rw [hmeq]
      exact take_append_left
    rw [List.take_zero, htake2] at h4
    obtain ⟨hg1, hg2⟩ := Prod.mk.injEq .. ▸ Option.some.inj h4
    refine ⟨rr, hrr, ?_, ?_, ?_, Or.inl hg1.symm⟩
    · rw [hmeq, ← hg1, ← hg2]
      simp
    · rw [← hg2]; exact hgne
    · rw [← hg2]; exact hg

/-- The space-scan followed by `(.+)$` with a never-failing final payload
cannot fail on a non-empty newline-free input. -/
theorem starPlusDollar_isSome {β : Type} (F : Str → Str → β) :
    ∀ {rest : Str}, rest ≠ [] → (∀ x ∈ rest, notNL x = true) →
      (starGreedy pyIsSpace
        (fun r1 => matchRE (.seq (.plus notNL) .dollar) r1
          (fun r2 => some (F r1 r2))) rest).isSome := by
  intro rest
  induction rest with
  | nil =>
    intro hne _
    exact absurd rfl hne
  | cons x xs ih =>
    intro _ hnl
    simp only [starGreedy]
    by_cases hx : pyIsSpace x
    · rw [if_pos hx]
      cases xs with
      | nil =>
        have hk0 : matchRE (α := β) (.seq (.plus notNL) .dollar) []
            (fun r2 => some (F [] r2)) = none := rfl
        simp only [starGreedy, hk0]
        rw [plusDollar_succeeds (k := fun r2 => some (F [x] r2)) (v := F [x] [])
          (by simp) (fun y hy => hnl y hy) rfl]
        rfl
      | cons y ys =>
        have hs := ih (by simp) (fun z hz => hnl z (List.mem_cons_of_mem _ hz))
        rcases hsg : starGreedy pyIsSpace
            (fun r1 => matchRE (.seq (.plus notNL) .dollar) r1
              (fun r2 => some (F r1 r2))) (y :: ys) with _ | w
        · rw [hsg] at hs
          cases hs
        · rfl
    · rw [if_neg hx]
      rw [plusDollar_succeeds (k := fun r2 => some (F (x :: xs) r2)) (v := F (x :: xs) [])
        (by simp) hnl rfl]
      rfl

theorem matchRE_opt_of_some {a : RE} {s : Str} {k : Str → Option α} {v : α}
    (h : matchRE a s k = some v) : matchRE (.opt a) s k = some v := by
  simp only [matchRE]
  rw [h]

/-- When the phase-1 matched text begins with a connector, has more after
it, and contains no newline, the connector re-split succeeds and returns
the connector run as group 1. -/
theorem connSplit1_conn {c : Char} {rest : Str}
    (hc : conn1 c = true) (hrest : rest ≠ [])
    (hnl : ∀ x ∈ (c :: rest : Str), notNL x = true) :
    ∃ ws g2, connSplit1 (c :: rest) = some (c :: ws, g2) ∧
      (∀ x ∈ ws, pyIsSpace x = true) ∧ rest = ws ++ g2 ∧ g2 ≠ [] := by
  have hinner := starPlusDollar_isSome (β := Str × Str)
    (F := fun r1 r2 => ((c :: rest : Str).take ((c :: rest : Str).length - r1.length),
      r1.take (r1.length - r2.length))) hrest
    (fun x hx => hnl x (List.mem_cons_of_mem _ hx))
  obtain ⟨v, hv⟩ := Option.isSome_iff_exists.mp hinner
  have hA : matchRE (.seq (.cls conn1) (.star pyIsSpace)) (c :: rest)
      (fun r1 => matchRE (.seq (.plus notNL) .dollar) r1
        (fun r2 => some ((c :: rest : Str).take ((c :: rest : Str).length - r1.length),
          r1.take (r1.length - r2.length)))) = some v := by
    simp only [matchRE, hc, if_true]
    exact hv
  have hsplit : connSplit1 (c :: rest) = some v := by
    unfold connSplit1
    exact matchRE_opt_of_some hA
  rw [matchRE_seq] at hA
  obtain ⟨c2, s1, hm2, _, h1⟩ := matchRE_cls_inv hA
  have hc2e : c2 = c := (List.cons.injEq c2 s1 c rest ▸ hm2.symm).1
  have hs1e : s1 = rest := (List.cons.injEq c2 s1 c rest ▸ hm2.symm).2
  subst hc2e
  subst hs1e
  obtain ⟨ws, r1, hs1, hws, h2⟩ := starGreedy_inv h1
  rw [matchRE_seq] at h2
  obtain ⟨g, rr, hr1, hgne, _, h3⟩ := matchRE_plus_inv h2
  obtain ⟨hrr, h4⟩ := matchRE_dollar_inv h3
  have hrrnil : rr = [] := by
    rcases hrr with hrr | hrr
    · exact hrr
    · exfalso
      have hmem : '\n' ∈ (c2 :: s1 : Str) := by
        rw [hs1, hr1, hrr]
        simp
      have := hnl '\n' hmem
      simp [notNL] at this
  subst hrrnil
  have hmlen : (c2 :: s1 : Str).length - r1.length = ws.length + 1 := by
    rw [hs1]
    simp only [List.length_cons, List.length_append]
    omega
  have hr1len : r1.length - ([] : Str).length = g.length := by
    rw [hr1]
    simp
  rw [hmlen, hr1len] at h4
  have htake1 : (c2 :: s1 : Str).take (ws.length + 1) = c2 :: ws := by
    rw [hs1, List.take_succ_cons]
    congr 1
    exact take_append_left
  have htake2 : r1.take g.length = g := by
    rw [hr1, List.append_nil, List.take_length]
  rw [htake1, htake2] at h4
  refine ⟨ws, g, ?_, hws, ?_, hgne⟩
  · rw [hsplit, ← h4]
  · rw [hs1, hr1, List.append_nil]

theorem remapSpan_shape {s e L : Nat} {sp : Span} (h : SpanShape sp) :
    SpanShape (remapSpan s e L sp) := h

theorem edit1_shape {key url : Str} {st : LState} {m : Nat × Nat × Str}
    (h : ∀ sp ∈ st.spans, SpanShape sp) :
    ∀ sp ∈ (edit1 key url st m).spans, SpanShape sp := by
  intro sp hsp
  unfold edit1 applyRepl at hsp
  simp only [List.mem_append, List.mem_map, List.mem_singleton] at hsp
  rcases hsp with ⟨sp0, hsp0, hre⟩ | hnew
  · rw [← hre]
    exact remapSpan_shape (h sp0 hsp0)
  · rw [hnew]
    constructor
    · intro hph
      cases hph
    · intro _ c rest hmt hc hrest hnl
      have hm2 : m.2.2 = c :: rest := hmt
      have hnl2 : ∀ x ∈ (c :: rest : Str), notNL x = true := by
        intro x hx
        apply hnl
        show x ∈ m.2.2
        rw [hm2]
        exact hx
      obtain ⟨ws, g2, hcs, hws, hrg, _⟩ := connSplit1_conn hc hrest hnl2
      refine ⟨ws, g2, hws, hrg, ?_⟩
      show (match connSplit1 m.2.2 with
        | some (g1, g2f) => g1 ++ '[' :: (g2f ++ ']' :: '(' :: (url ++ [')']))
        | none => '[' :: (m.2.2 ++ ']' :: '(' :: (url ++ [')']))) =
        (c :: ws) ++ '[' :: (g2 ++ ']' :: '(' :: (url ++ [')']))
      rw [hm2, hcs]

theorem edit2_shape {key url : Str} {st : LState} {m : Nat × Nat × Str}
    (h : ∀ sp ∈ st.spans, SpanShape sp) :
    ∀ sp ∈ (edit2 key url st m).spans, SpanShape sp := by
  intro sp hsp
  unfold edit2 at hsp
  rcases hcs : connSplit2 m.2.2 with _ | ⟨g1, g2⟩
  · rw [hcs] at hsp
    exact h sp hsp
  · rw [hcs] at hsp
    unfold applyRepl at hsp
    simp only [List.mem_append, List.mem_map, List.mem_singleton] at hsp
    rcases hsp with ⟨sp0, hsp0, hre⟩ | hnew
    · rw [← hre]
      exact remapSpan_shape (h sp0 hsp0)
    · rw [hnew]
      obtain ⟨c, ws, tl, hg1, hc, hws, hg2ne, hg2nl, hm⟩ := connSplit2_inv hcs
      constructor
      · intro _
        exact ⟨c, ws, tl, g2, hc, hws, hg2ne, hg2nl, by simp only [hm], by simp only [hg1]⟩
      · intro hph
        cases hph

theorem processDesc_shape {ed : LState → (Nat × Nat × Str) → LState}
    (hed : ∀ st m, (∀ sp ∈ st.spans, SpanShape sp) →
      ∀ sp ∈ (ed st m).spans, SpanShape sp)
    {st : LState} (h : ∀ sp ∈ st.spans, SpanShape sp) :
    ∀ (ms : List (Nat × Nat × Str)), ∀ sp ∈ (processDesc ed st ms).spans, SpanShape sp := by
  intro ms
  induction ms with
  | nil => exact h
  | cons m rest ih =>
    exact hed (processDesc ed st rest) m ih

theorem processLaw1_shape {d : List (Str × Str)} {st : LState} {law : Str}
    (h : ∀ sp ∈ st.spans, SpanShape sp) :
    ∀ sp ∈ (processLaw1 d st law).spans, SpanShape sp := by
  unfold processLaw1
  by_cases hpre : ("第".data).isPrefixOf law = true
  · rw [if_pos hpre]
    exact h
  · rw [if_neg hpre]
    rcases lawKeySplit law with _ | ⟨name, article⟩
    · exact h
    · exact processDesc_shape (fun st2 m2 h2 => edit1_shape h2) h _

theorem processLaw2_shape {d : List (Str × Str)} {st : LState} {law : Str}
    (h : ∀ sp ∈ st.spans, SpanShape sp) :
    ∀ sp ∈ (processLaw2 d st law).spans, SpanShape sp := by
  unfold processLaw2
  by_cases hpre : ("第".data).isPrefixOf law = true
  · rw [if_pos hpre]
    exact processDesc_shape (fun st2 m2 h2 => edit2_shape h2) h _
  · rw [if_neg hpre]
    exact h

theorem foldl_shape {f : LState → Str → LState}
    (hf : ∀ st law, (∀ sp ∈ st.spans, SpanShape sp) →
      ∀ sp ∈ (f st law).spans, SpanShape sp) :
    ∀ (laws : List Str) (st : LState), (∀ sp ∈ st.spans, SpanShape sp) →
      ∀ sp ∈ (laws.foldl f st).spans, SpanShape sp := by
  intro laws
  induction laws with
  | nil => exact fun st h => h
  | cons l ls ih =>
    intro st h
    exact ih (f st l) (hf st l h)

/-- Every span the linker inserts obeys the connector discipline. -/
theorem addLawLinksCore_shape (t : Str) (d : List (Str × Str)) :
    ∀ sp ∈ (addLawLinksCore t d).spans, SpanShape sp := by
  unfold addLawLinksCore
  cases d with
  | nil =>
    intro sp hsp
    cases hsp
  | cons p ps =>
    apply foldl_shape (fun st law h => processLaw2_shape h)
    apply foldl_shape (fun st law h => processLaw1_shape h)
    intro sp hsp
    cases hsp

/-- C8 (amended): a phase-2 (abbreviated-key) replacement happens only at
an occurrence preceded by a connector word (with optional whitespace), and
the connector run stays outside the inserted link; a phase-1 replacement
whose matched text is newline-free likewise keeps a leading connector run
outside the link; and the spec's example holds: `、第51條` with table
`第51條 → https://law/51` yields `、[第51條](https://law/51)`. -/
theorem C8_connector_discipline :
    add_law_links_to_text "、第51條".data [("第51條".data, "https://law/51".data)] =
      "、[第51條](https://law/51)".data ∧
    ∀ (t : Str) (d : List (Str × Str)), ∀ sp ∈ (addLawLinksCore t d).spans, SpanShape sp :=
  ⟨by decide, fun t d => addLawLinksCore_shape t d⟩

/-- C8 counterexample: when `\s*` matches a newline between statute name
and article, the phase-1 connector re-split fails and the whole matched
text — connector included — is wrapped inside the link markup. -/
theorem C8_counterexample_connector_inside_link :
    add_law_links_to_text "、甲法\n第1條".data [("甲法第1條".data, "u".data)] =
      "[、甲法\n第1條](u)".data ∧
    ∃ sp ∈ (addLawLinksCore "、甲法\n第1條".data [("甲法第1條".data, "u".data)]).spans,
      sp.phase = 1 ∧ sp.matched.take 1 = ['、'] ∧ conn1 '、' = true ∧
      sp.repl.take 2 = ['[', '、'] := by
  constructor
  · decide
  · decide

theorem C8_witness :
    SpanShape
      { s := 0, e := 23, phase := 2, key := "第51條".data,
        url := "https://law/51".data, matched := "、第51條".data,
        repl := "、[第51條](https://law/51)".data } :=
  C8_connector_discipline.2 "、第51條".data [("第51條".data, "https://law/51".data)]
    { s := 0, e := 23, phase := 2, key := "第51條".data,
      url := "https://law/51".data, matched := "、第51條".data,
      repl := "、[第51條](https://law/51)".data } (by decide)

/-! ### The string order is reflexive, total and transitive -/
theorem strLe_refl (s : Str) : strLe s s = true := by
  induction s with
  | nil => rfl
  | cons a as ih =>
    simp only [strLe, if_pos rfl]
    exact ih

theorem strLe_total (a b : Str) : strLe a b = true ∨ strLe b a = true := by
  induction a generalizing b with
  | nil => exact Or.inl rfl
  | cons x xs ih =>
    cases b with
    | nil => exact Or.inr rfl
    | cons y ys =>
      by_cases hxy : x = y
      · subst hxy
        simp only [strLe, if_pos rfl]
        exact ih ys
      · rcases lt_trichotomy x y with hlt | heq | hgt
        · left
          simp only [strLe]
          rw [if_neg hxy]
          exact decide_eq_true hlt
        · exact absurd heq hxy
        · right
          simp only [strLe]
          rw [if_neg (fun he : y = x => hxy he.symm)]
          exact decide_eq_true hgt

theorem strLe_trans {a b c : Str} (h1 : strLe a b = true) (h2 : strLe b c = true) :
    strLe a c = true := by
  induction a generalizing b c with
  | nil => rfl
  | cons x xs ih =>
    cases b with
    | nil => cases h1
    | cons y ys =>
      cases c with
      | nil => cases h2
      | cons z zs =>
        by_cases hxy : x = y
        · subst hxy
          simp only [strLe, if_pos rfl] at h1
          by_cases hyz : x = z
          · subst hyz
            simp only [strLe, if_pos rfl] at h2 ⊢
            exact ih h1 h2
          · simp only [strLe, if_neg hyz] at h2 ⊢
            exact h2
        · simp only [strLe, if_neg hxy] at h1
          have hlt1 : x < y := of_decide_eq_true h1
          by_cases hyz : y = z
          · subst hyz
            simp only [strLe]
            rw [if_neg hxy]
            exact decide_eq_true hlt1
          · simp only [strLe, if_neg hyz] at h2
            have hlt2 : y < z := of_decide_eq_true h2
            have hlt : x < z := lt_trans hlt1 hlt2
            have hxz : ¬ x = z := fun he => absurd (he ▸ hlt) (lt_irrefl z)
            simp only [strLe]
            rw [if_neg hxz]
            exact decide_eq_true hlt

/-! ### The dedup loop: unique ids, resolvable entries, first occurrence -/
theorem dedupSourcesAux_facts (mapping : List (Str × FileInfo)) (gmap : List (Str × Str)) :
    ∀ (srcs : List SourceItem) (seen : List Str),
      ∀ e ∈ dedupSourcesAux mapping gmap srcs seen,
        e.1 ∉ seen ∧ e.1 ≠ [] ∧ (alookup e.1 mapping).isSome = true ∧
        ∃ src, srcs.find? (fun s =>
            extract_file_id s.filename gmap == some e.1) = some src ∧
          src.snippet = e.2 := by
  intro srcs
  induction srcs with
  | nil =>
    intro seen e he
    cases he
  | cons src rest ih =>
    intro seen e he
    unfold dedupSourcesAux at he
    split at he
    · rename_i hex
      obtain ⟨h1, h2, h3, src2, h4, h5⟩ := ih seen e he
      refine ⟨h1, h2, h3, src2, ?_, h5⟩
      rw [List.find?_cons_of_neg _ (by simp [hex])]
      exact h4
    · rename_i fid hex
      split at he
      · rename_i hfe
        obtain ⟨h1, h2, h3, src2, h4, h5⟩ := ih seen e he
        refine ⟨h1, h2, h3, src2, ?_, h5⟩
        rw [List.find?_cons_of_neg _ (by
          simp [hex, hfe]
          exact fun hc => h2 hc)]
        exact h4
      · rename_i hfe
        split at he
        · rename_i hlk
          obtain ⟨h1, h2, h3, src2, h4, h5⟩ := ih seen e he
          refine ⟨h1, h2, h3, src2, ?_, h5⟩
          rw [List.find?_cons_of_neg _ (by
            simp [hex]
            intro hc
            rw [← hc] at h3
            rw [Option.isNone_iff_eq_none.mp hlk] at h3
            cases h3)]
          exact h4
        · rename_i hlk
          split at he
          · rename_i hseen
            obtain ⟨h1, h2, h3, src2, h4, h5⟩ := ih seen e he
            refine ⟨h1, h2, h3, src2, ?_, h5⟩
            rw [List.find?_cons_of_neg _ (by
              simp [hex]
              intro hc
              exact absurd (hc ▸ hseen) h1)]
            exact h4
          · rename_i hseen
            rcases List.mem_cons.mp he with he1 | he2
            · subst he1
              refine ⟨hseen, hfe, ?_, src, ?_, rfl⟩
              · rcases hl : alookup fid mapping with _ | info
                · rw [hl] at hlk
                  exact absurd rfl hlk
                · rfl
              · rw [List.find?_cons_of_pos _ (by simp [hex])]
            · obtain ⟨h1, h2, h3, src2, h4, h5⟩ := ih (fid :: seen) e he2
              have hne : e.1 ≠ fid := fun hc => h1 (hc ▸ List.mem_cons_self fid seen)
              refine ⟨fun hc => h1 (List.mem_cons_of_mem _ hc), h2, h3, src2, ?_, h5⟩
              rw [List.find?_cons_of_neg _ (by
                simp [hex]
                intro hc
                exact absurd hc.symm hne)]
              exact h4

theorem dedupSourcesAux_pairwise (mapping : List (Str × FileInfo)) (gmap : List (Str × Str)) :
    ∀ (srcs : List SourceItem) (seen : List Str),
      (dedupSourcesAux mapping gmap srcs seen).Pairwise (fun a b => a.1 ≠ b.1) := by
  intro srcs
  induction srcs with
  | nil =>
    intro seen
    exact List.Pairwise.nil
  | cons src rest ih =>
    intro seen
    unfold dedupSourcesAux
    split
    · exact ih seen
    · split
      · exact ih seen
      · split
        · exact ih seen
        · split
          · exact ih seen
          · rename_i fid hex hfid hlk hseen
            refine List.Pairwise.cons ?_ (ih (fid :: seen))
            intro e he
            have h1 := (dedupSourcesAux_facts mapping gmap rest (fid :: seen) e he).1
            exact fun hc => h1 (hc ▸ List.mem_cons_self fid seen)

/-! ### Pair-sublist order facts -/
theorem mem_pair_sublist {α : Type} {a b : α} :
    ∀ {l : List α}, a ∈ l → b ∈ l → a ≠ b →
      [a, b].Sublist l ∨ [b, a].Sublist l := by
  intro l
  induction l with
  | nil =>
    intro ha _ _
    cases ha
  | cons x xs ih =>
    intro ha hb hab
    rcases List.mem_cons.mp ha with hax | hax
    · subst hax
      have hbx : b ∈ xs := by
        rcases List.mem_cons.mp hb with hbx | hbx
        · exact absurd hbx.symm hab
        · exact hbx
      left
      exact (List.singleton_sublist.mpr hbx).cons₂ a
    · rcases List.mem_cons.mp hb with hbx | hbx
      · subst hbx
        right
        exact (List.singleton_sublist.mpr hax).cons₂ b
      · rcases ih hax hbx hab with h | h
        · exact Or.inl (h.cons x)
        · exact Or.inr (h.cons x)

theorem pair_sublist_asymm {α : Type} {a b : α} :
    ∀ {l : List α}, l.Pairwise (fun x y => x ≠ y) →
      [a, b].Sublist l → [b, a].Sublist l → False := by
  intro l
  induction l with
  | nil =>
    intro _ h1 _
    cases h1
  | cons x xs ih =>
    intro hp h1 h2
    cases h1 with
    | cons _ h1t =>
      cases h2 with
      | cons _ h2t => exact ih hp.tail h1t h2t
      | cons₂ _ h2t =>
        have hbx := h1t.subset (show b ∈ [a, b] by simp)
        exact (List.pairwise_cons.mp hp).1 _ hbx rfl
    | cons₂ _ h1t =>
      cases h2 with
      | cons _ h2t =>
        have hax := h2t.subset (show a ∈ [b, a] by simp)
        exact (List.pairwise_cons.mp hp).1 _ hax rfl
      | cons₂ _ h2t =>
        have hbx := List.singleton_sublist.mp h1t
        exact (List.pairwise_cons.mp hp).1 _ hbx rfl

/-- C4: the reference list built by `display_sources_simple` has at most
one entry per canonical id; every entry resolved successfully to a
non-falsy id present in the case table and carries the snippet of the
first source that resolved to that id (input order); and it is sorted by
case date descending, with equal dates kept in first-seen order. -/
theorem C4_reference_list (sources : List SourceItem) (mapping : List (Str × FileInfo))
    (gmap : List (Str × Str)) :
    (uniqueSources sources mapping gmap).Pairwise (fun a b => a.1 ≠ b.1) ∧
    (∀ e ∈ uniqueSources sources mapping gmap,
      e.1 ≠ [] ∧ (alookup e.1 mapping).isSome = true ∧
      ∃ src, sources.find? (fun s =>
          extract_file_id s.filename gmap == some e.1) = some src ∧
        src.snippet = e.2) ∧
    (uniqueSources sources mapping gmap).Pairwise
      (fun a b => strLe (sourceDate mapping b) (sourceDate mapping a) = true) ∧
    (∀ a b, [a, b].Sublist (uniqueSources sources mapping gmap) →
      sourceDate mapping a = sourceDate mapping b →
      [a, b].Sublist (dedupSources sources mapping gmap)) := by
  have hperm : (uniqueSources sources mapping gmap).Perm
      (dedupSources sources mapping gmap) :=
    List.perm_insertionSort _ _
  have hdup : (dedupSources sources mapping gmap).Pairwise (fun a b => a.1 ≠ b.1) :=
    dedupSourcesAux_pairwise mapping gmap sources []
  have hsymm : Symmetric (fun a b : Str × Str => a.1 ≠ b.1) :=
    fun a b h => fun he => h he.symm
  have hpw : (uniqueSources sources mapping gmap).Pairwise (fun a b => a.1 ≠ b.1) :=
    (hperm.pairwise_iff (fun h => hsymm h)).mpr hdup
  haveI htot : IsTotal (Str × Str)
      (fun a b => strLe (sourceDate mapping b) (sourceDate mapping a) = true) :=
    ⟨fun a b => strLe_total (sourceDate mapping b) (sourceDate mapping a)⟩
  haveI htr : IsTrans (Str × Str)
      (fun a b => strLe (sourceDate mapping b) (sourceDate mapping a) = true) :=
    ⟨fun a b c h1 h2 => strLe_trans h2 h1⟩
  refine ⟨hpw, ?_, ?_, ?_⟩
  · intro e he
    have hmem : e ∈ dedupSources sources mapping gmap := hperm.subset he
    obtain ⟨_, h2, h3, src, h4, h5⟩ :=
      dedupSourcesAux_facts mapping gmap sources [] e hmem
    exact ⟨h2, h3, src, h4, h5⟩
  · exact List.sorted_insertionSort _ _
  · intro a b hab hdate
    have hane : a.1 ≠ b.1 := (List.pairwise_cons.mp (hpw.sublist hab)).1 b (by simp)
    have hamem : a ∈ dedupSources sources mapping gmap :=
      hperm.subset (hab.subset (by simp))
    have hbmem : b ∈ dedupSources sources mapping gmap :=
      hperm.subset (hab.subset (by simp))
    rcases mem_pair_sublist hamem hbmem (fun he => hane (congrArg Prod.fst he)) with h | h
    · exact h
    · exfalso
      have hba : [b, a].Pairwise
          (fun x y => strLe (sourceDate mapping y) (sourceDate mapping x) = true) := by
        refine List.pairwise_cons.mpr ⟨?_, ?_⟩
        · intro y hy
          rw [List.mem_singleton.mp hy]
          rw [hdate]
          exact strLe_refl _
        · simp
      have hba2 : [b, a].Sublist (uniqueSources sources mapping gmap) :=
        List.sublist_insertionSort hba h
      exact pair_sublist_asymm (hpw.imp (fun h he => h (congrArg Prod.fst he)))
        hab hba2

theorem C4_witness :
    sourceDate c4Mapping ("fsc_pen_20230101_0001".data, "s1".data) =
      sourceDate c4Mapping ("fsc_pen_20230101_0002".data, "s3".data) ∧
    [("fsc_pen_20230101_0001".data, "s1".data),
     ("fsc_pen_20230101_0002".data, "s3".data)].Sublist
        (dedupSources c4Sources c4Mapping []) ∧
    (("fsc_pen_20230101_0001".data : Str) ≠ [] ∧
      (alookup ("fsc_pen_20230101_0001".data : Str) c4Mapping).isSome = true ∧
      ∃ src, c4Sources.find? (fun s =>
          extract_file_id s.filename [] == some "fsc_pen_20230101_0001".data) = some src ∧
        src.snippet = "s1".data) :=
  ⟨by decide,
   (C4_reference_list c4Sources c4Mapping []).2.2.2 _ _ (by decide) (by decide),
   (C4_reference_list c4Sources c4Mapping []).2.1
     ("fsc_pen_20230101_0001".data, "s1".data) (by decide)⟩
